import Mathlib

/-!
Verification of the route-resolution core of the transport agent
(`src/agent/transport_agent.py`): stop-name normalization, alias handling,
fuzzy stop resolution, direct-route search (`find_route`) and two-leg
transfer synthesis (`suggest_alternative`).

The agent's fuzzy matching calls `difflib.SequenceMatcher(None, a, b).ratio()`
from the Python standard library; that algorithm (including the `autojunk`
"popular element" rule) is embedded here following CPython's `difflib.py`.
Scores computed by Python in floating point (`ratio()` plus the `0.12`
substring bonus) are modelled exactly over `ℚ`.

Strings are Python `str` values; stop data in this application is ASCII, and
`String.toLower` / `Char.isWhitespace` model Python's `str.lower` /
`str.split()` on that fragment.
-/

namespace Transport

/-- Python's ASCII whitespace (`str.split()` / `str.strip()` with no
arguments split on these; the stop data is ASCII). -/
def pyIsSpace (c : Char) : Bool :=
  c = ' ' || c = '\t' || c = '\n' || c = '\x0d' || c = '\x0b' || c = '\x0c'

/-- Python `str.lower` on the ASCII fragment. -/
def pyLowerChar (c : Char) : Char :=
  if 'A' ≤ c ∧ c ≤ 'Z' then Char.ofNat (c.toNat + 32) else c

/-- Split a character list at every whitespace character (producing empty
pieces for runs; Python `str.split()` with no argument is this followed by
discarding the empty pieces). -/
def splitChars : List Char → List (List Char)
  | [] => [[]]
  | c :: rest =>
    let r := splitChars rest
    if pyIsSpace c then [] :: r else (c :: r.headD []) :: r.tail

/-- Python `" ".join(value.strip().lower().split())` (`_normalize`):
lower-case, split on whitespace discarding empty pieces (which makes the
leading `strip` redundant), and re-join with single spaces. -/
def normalize (value : String) : String :=
  String.mk (List.intercalate [' ']
    ((splitChars (value.data.map pyLowerChar)).filter (fun w => decide (w ≠ []))))

/-- Python substring test `needle in hay`. -/
def strIn (needle hay : String) : Bool :=
  (List.range (hay.data.length + 1)).any (fun d => needle.data.isPrefixOf (hay.data.drop d))

/-! ### difflib.SequenceMatcher, following CPython's `difflib.py`

`SequenceMatcher(None, a, b)` is constructed with no junk predicate, so the
only junk characters are `autojunk`'s "popular" elements of `b`: when `b` has
at least 200 characters, every character occurring more than `len(b)//100 + 1`
times.  Junk characters are dropped from the `b2j` index. -/

/-- difflib `autojunk`: popular characters of `b` (only when `len b ≥ 200`). -/
def bJunk (b : List Char) (c : Char) : Bool :=
  decide (200 ≤ b.length) && decide (b.length / 100 + 1 < b.count c)

/-- difflib's `b2j` index: the ascending list of positions of `c` in `b`,
empty for junk characters. -/
def b2j (b : List Char) (c : Char) : List Nat :=
  if bJunk b c then [] else (List.range b.length).filter (fun j => decide (b.get? j = some c))

/-- One row of `find_longest_match`'s dynamic program: the loop
`for j in b2j.get(a[i], [])` with `j2len` the previous row's map (default 0)
and `newj2len` accumulated in `acc`.  `j < blo` is `continue`; `j ≥ bhi` is
`break` (sound because `b2j` lists are ascending).  A new best block is
recorded only on strictly larger size. -/
def flmInner (i blo bhi : Nat) (j2len : Nat → Nat) :
    List Nat → (Nat → Nat) → Nat × Nat × Nat → ((Nat → Nat) × (Nat × Nat × Nat))
  | [], acc, st => (acc, st)
  | j :: js, acc, st =>
    if j < blo then flmInner i blo bhi j2len js acc st
    else if bhi ≤ j then (acc, st)
    else
      -- Python `j2len.get(j-1, 0) + 1`; at `j = 0` the lookup key is -1, absent.
      let k := (if j = 0 then 0 else j2len (j - 1)) + 1
      let acc2 : Nat → Nat := fun x => if x = j then k else acc x
      let st2 := if st.2.2 < k then (i + 1 - k, j + 1 - k, k) else st
      flmInner i blo bhi j2len js acc2 st2

/-- The outer loop `for i in range(alo, ahi)` of `find_longest_match`,
threading `j2len` from row to row. -/
def flmOuter (a b : List Char) (blo bhi : Nat) :
    List Nat → (Nat → Nat) → Nat × Nat × Nat → Nat × Nat × Nat
  | [], _, st => st
  | i :: rest, j2len, st =>
    let p := flmInner i blo bhi j2len (b2j b (a.getD i (Char.ofNat 0))) (fun _ => 0) st
    flmOuter a b blo bhi rest p.1 p.2

/-- One of `find_longest_match`'s backward `while` extension loops
(`phase = false`: the non-junk loop, `phase = true`: the junk loop).
`fuel` bounds the iteration count; callers pass `besti`, which suffices
since `besti` decreases to at most `alo` and by 1 per step. -/
def extendBack (a b : List Char) (alo blo : Nat) (phase : Bool) :
    Nat → Nat → Nat → Nat → Nat × Nat × Nat
  | 0, besti, bestj, bestsize => (besti, bestj, bestsize)
  | fuel + 1, besti, bestj, bestsize =>
    if alo < besti ∧ blo < bestj ∧
        bJunk b (b.getD (bestj - 1) (Char.ofNat 0)) = phase ∧
        a.getD (besti - 1) (Char.ofNat 0) = b.getD (bestj - 1) (Char.ofNat 0) then
      extendBack a b alo blo phase fuel (besti - 1) (bestj - 1) (bestsize + 1)
    else (besti, bestj, bestsize)

/-- One of `find_longest_match`'s forward `while` extension loops.
Callers pass `fuel = ahi`, enough since `besti + bestsize` grows to at
most `ahi` by 1 per step. -/
def extendFwd (a b : List Char) (ahi bhi : Nat) (phase : Bool) :
    Nat → Nat → Nat → Nat → Nat × Nat × Nat
  | 0, besti, bestj, bestsize => (besti, bestj, bestsize)
  | fuel + 1, besti, bestj, bestsize =>
    if besti + bestsize < ahi ∧ bestj + bestsize < bhi ∧
        bJunk b (b.getD (bestj + bestsize) (Char.ofNat 0)) = phase ∧
        a.getD (besti + bestsize) (Char.ofNat 0) = b.getD (bestj + bestsize) (Char.ofNat 0) then
      extendFwd a b ahi bhi phase fuel besti bestj (bestsize + 1)
    else (besti, bestj, bestsize)

/-- difflib `find_longest_match(alo, ahi, blo, bhi)`: the dynamic program over
rows `[alo, ahi)`, then the four extension loops (non-junk backward, non-junk
forward, junk backward, junk forward), returning `(besti, bestj, bestsize)`. -/
def findLongestMatch (a b : List Char) (alo ahi blo bhi : Nat) : Nat × Nat × Nat :=
  let s0 := flmOuter a b blo bhi (List.range' alo (ahi - alo)) (fun _ => 0) (alo, blo, 0)
  let s1 := extendBack a b alo blo false s0.1 s0.1 s0.2.1 s0.2.2
  let s2 := extendFwd a b ahi bhi false ahi s1.1 s1.2.1 s1.2.2
  let s3 := extendBack a b alo blo true s2.1 s2.1 s2.2.1 s2.2.2
  extendFwd a b ahi bhi true ahi s3.1 s3.2.1 s3.2.2

/-- Total size of difflib's matching blocks on the given ranges: the
recursive decomposition performed by `get_matching_blocks` (the queue order
there does not affect the sum; its guards on empty subranges are subsumed by
the `k = 0` test).  `fuel` bounds the recursion depth; each recursive call
strictly shrinks the `a`-range, so any `fuel ≥ ahi - alo` computes the
fixpoint. -/
def matchTotal (a b : List Char) : Nat → Nat → Nat → Nat → Nat → Nat
  | 0, _, _, _, _ => 0
  | fuel + 1, alo, ahi, blo, bhi =>
    let m := findLongestMatch a b alo ahi blo bhi
    if m.2.2 = 0 then 0
    else
      matchTotal a b fuel alo m.1 blo m.2.1 + m.2.2 +
        matchTotal a b fuel (m.1 + m.2.2) ahi (m.2.1 + m.2.2) bhi

/-- difflib `SequenceMatcher(None, sa, sb).ratio()`: `2*M / T` where `M` is
the total size of the matching blocks and `T` the total length (`1.0` when
both strings are empty), computed exactly over `ℚ`. -/
def ratioQ (sa sb : String) : ℚ :=
  let a := sa.data
  let b := sb.data
  let t := a.length + b.length
  if t = 0 then 1
  else 2 * (matchTotal a b t 0 a.length 0 b.length : ℚ) / (t : ℚ)

/-- The `0.12` substring bonus of `_resolve_stop`:
`if key in stop_key or stop_key in key: score += 0.12`. -/
def bonusQ (key stopKey : String) : ℚ :=
  if strIn key stopKey || strIn stopKey key then 12 / 100 else 0

/-- The fuzzy-resolution score of `_resolve_stop`:
`SequenceMatcher(None, key, stop_key).ratio()` plus the substring bonus. -/
def scoreQ (key stopKey : String) : ℚ :=
  ratioQ key stopKey + bonusQ key stopKey

/-! ### Data model

`RouteRow` mirrors the frozen dataclass of the same name.  `departure_minutes`
is produced by `_clock_to_minutes` at load time, hence a minutes-since-midnight
count (`Nat`); `duration_minutes` is a Python `int`. -/

structure RouteRow where
  route_id : String
  from_stop : String
  to_stop : String
  bus_number : String
  departure_time : String
  departure_minutes : Nat
  duration_minutes : Int
  stops : List String
deriving DecidableEq, Repr

/-- The static alias table built in `TransportAgent.__init__` (`self.aliases`). -/
def aliases : List (String × String) :=
  [("airport", "amausi airport"),
   ("amausi", "amausi airport"),
   ("station", "charbagh"),
   ("railway station", "charbagh"),
   ("charbagh station", "charbagh"),
   ("gomtinagar", "gomti nagar"),
   ("gomti nagr", "gomti nagar")]

/-- Python `self.aliases.get(key, key)`. -/
def aliasGet (key : String) : String :=
  match aliases.find? (fun p => decide (p.1 = key)) with
  | some p => p.2
  | none => key

/-- One step of `_build_stop_list`'s loop body: the state is
`(ordered, seen)`, and a stop is appended when its normalized key is new. -/
def stopFold (st : List String × List String) (stop : String) : List String × List String :=
  let key := normalize stop
  if key ∈ st.2 then st else (st.1 ++ [stop], st.2 ++ [key])

/-- `_build_stop_list`: first-seen display form of each distinct normalized
stop, in load order (`self.known_stops`). -/
def buildStopList (routes : List RouteRow) : List String :=
  (routes.foldl (fun st route => route.stops.foldl stopFold st) ([], [])).1

/-- `self.stop_lookup = {self._normalize(stop): stop for stop in self.known_stops}`,
queried with `key in` / `[key]`; in a dict comprehension later entries
override earlier ones. -/
def stopLookup (routes : List RouteRow) (key : String) : Option String :=
  (buildStopList routes).foldl
    (fun acc stop => if normalize stop = key then some stop else acc) none

/-- The fuzzy-matching loop of `_resolve_stop`: track `(best_name, best_score)`
from `(None, 0.0)`, updating only on a strictly greater score (so ties keep
the first-seen stop in known-stop order). -/
def resolveBest (routes : List RouteRow) (key : String) : Option String × ℚ :=
  (buildStopList routes).foldl
    (fun (best : Option String × ℚ) stop =>
      let score := scoreQ key (normalize stop)
      if best.2 < score then (some stop, score) else best)
    (none, 0)

/-- `_resolve_stop`: normalize, fail on empty, apply the alias table, try the
exact lookup, else take the best fuzzy score and require it to be at least
`0.70`. -/
def resolveStop (routes : List RouteRow) (raw_stop : String) : Option String :=
  let key := normalize raw_stop
  if key = "" then none
  else
    let key := aliasGet key
    match stopLookup routes key with
    | some s => some s
    | none =>
      let best := resolveBest routes key
      match best.1 with
      | none => none
      | some name => if best.2 < 7 / 10 then none else some name

/-! ### Time parsing

`_clock_to_minutes` calls `datetime.strptime(hhmm, "%H:%M")`, which matches
the anchored regex `(2[0-3]|[0-1]\d|\d):([0-5]\d|\d)` with ordered
alternation and backtracking and requires the whole string to be consumed;
on failure it raises `ValueError`, which `_parse_time` turns into `None`. -/

def digitVal (c : Char) : Nat := c.toNat - 48

/-- The `%H` alternatives `2[0-3] | [0-1]\d | \d`, in regex order, each with
the remaining input. -/
def hourAlts : List Char → List (Nat × List Char)
  | c1 :: c2 :: rest =>
    (if c1 = '2' ∧ '0' ≤ c2 ∧ c2 ≤ '3' then [(20 + digitVal c2, rest)] else []) ++
    (if (c1 = '0' ∨ c1 = '1') ∧ c2.isDigit then [(10 * digitVal c1 + digitVal c2, rest)] else []) ++
    (if c1.isDigit then [(digitVal c1, c2 :: rest)] else [])
  | [c1] => if c1.isDigit then [(digitVal c1, [])] else []
  | [] => []

/-- The `%M` alternatives `[0-5]\d | \d`, in regex order. -/
def minuteAlts : List Char → List (Nat × List Char)
  | c1 :: c2 :: rest =>
    (if ('0' ≤ c1 ∧ c1 ≤ '5') ∧ c2.isDigit then [(10 * digitVal c1 + digitVal c2, rest)] else []) ++
    (if c1.isDigit then [(digitVal c1, c2 :: rest)] else [])
  | [c1] => if c1.isDigit then [(digitVal c1, [])] else []
  | [] => []

/-- `_clock_to_minutes` (successful case): the first full-string parse in
backtracking order, as `hour * 60 + minute`. -/
def clockToMinutes (hhmm : String) : Option Nat :=
  ((hourAlts hhmm.data).flatMap (fun hr =>
    match hr.2 with
    | ':' :: rest =>
      (minuteAlts rest).filterMap (fun mr => if mr.2 = [] then some (hr.1 * 60 + mr.1) else none)
    | _ => [])).head?

/-- Python `value.strip()`. -/
def pyStrip (value : String) : String :=
  String.mk (((value.data.dropWhile pyIsSpace).reverse.dropWhile pyIsSpace).reverse)

/-- `_parse_time`: strip, treat empty as no filter, and swallow the
`ValueError` of an unparsable value. -/
def parseTime (value : String) : Option Nat :=
  let text := pyStrip value
  if text = "" then none else clockToMinutes text

/-! ### Legs and durations -/

/-- Python's built-in `round` on an exact rational: nearest integer,
ties to even. -/
def pyRound (q : ℚ) : ℤ :=
  let f := ⌊q⌋
  if q - f < 1 / 2 then f
  else if (1 : ℚ) / 2 < q - f then f + 1
  else if f % 2 = 0 then f else f + 1

/-- `_segment_duration`: `max(5, round(duration * (segment_edges / total_edges)))`
with `total_edges = max(1, len(stops) - 1)` and
`segment_edges = max(1, end_idx - start_idx)`.  The quotient, a Python float,
is modelled exactly over `ℚ`.  (For `end_idx < start_idx` Python's negative
difference and `Nat` truncation both clamp to `1` under `max`.) -/
def segmentDuration (route : RouteRow) (start_idx end_idx : Nat) : Int :=
  let total_edges : Nat := max 1 (route.stops.length - 1)
  let segment_edges : Nat := max 1 (end_idx - start_idx)
  max 5 (pyRound ((route.duration_minutes : ℚ) * ((segment_edges : ℚ) / (total_edges : ℚ))))

/-- First index of `key` in `l`: Python `list.index` with its `ValueError`
turned into `none` by the callers' try/except. -/
def indexOf? (l : List String) (key : String) : Option Nat :=
  match l with
  | [] => none
  | x :: xs => if x = key then some 0 else (indexOf? xs key).map (· + 1)

/-- `_route_leg`: first index of the normalized `from` stop, then the first
strictly later index equal to the normalized `to` stop
(`for end in range(start + 1, len(normalized_stops))`). -/
def routeLeg (stops : List String) (from_stop to_stop : String) : Option (Nat × Nat) :=
  let normalized := stops.map normalize
  let from_key := normalize from_stop
  let to_key := normalize to_stop
  match indexOf? normalized from_key with
  | none => none
  | some start =>
    match indexOf? (normalized.drop (start + 1)) to_key with
    | none => none
    | some off => some (start, start + 1 + off)

/-- `_find_stop_index`: first index whose normalized form equals the
normalized target. -/
def findStopIndex (stops : List String) (stop_name : String) : Option Nat :=
  indexOf? (stops.map normalize) (normalize stop_name)

/-- Python slice `l[s:e]` (for the non-negative indices used here). -/
def listSlice {α : Type} (l : List α) (s e : Nat) : List α := (l.drop s).take (e - s)

/-! ### Sort keys

Python compares the `(int, int, str)` / `(int, int, int, str)` sort keys
lexicographically, strings by code points. -/

/-- Lexicographic strict order on character lists by code point
(Python `str <`). -/
def charListLt : List Char → List Char → Bool
  | [], [] => false
  | [], _ :: _ => true
  | _ :: _, [] => false
  | x :: xs, y :: ys => decide (x.toNat < y.toNat) || (decide (x = y) && charListLt xs ys)

def strLtB (x y : String) : Bool := charListLt x.data y.data

/-- Python `<` on `(int, int, str)` triples. -/
def key3Lt (x y : Int × Int × String) : Bool :=
  decide (x.1 < y.1) || (decide (x.1 = y.1) &&
    (decide (x.2.1 < y.2.1) || (decide (x.2.1 = y.2.1) && strLtB x.2.2 y.2.2)))

/-- Python `<` on `(int, int, int, str)` quadruples. -/
def key4Lt (x y : Int × Int × Int × String) : Bool :=
  decide (x.1 < y.1) || (decide (x.1 = y.1) && key3Lt x.2 y.2)

/-- Python stable `sort` by a key followed by `[0]`: the first element
attaining the minimum of the strict comparison `lt`. -/
def pickFirstMin {α : Type} (lt : α → α → Bool) : List α → Option α
  | [] => none
  | x :: xs => some (xs.foldl (fun best y => if lt y best then y else best) x)

/-! ### find_route -/

structure RoutePayload where
  bus_number : String
  departure_time : String
  duration_minutes : Int
  stops : List String
deriving DecidableEq, Repr

/-- The payload appended for a matching route in `find_route`. -/
def mkRoutePayload (route : RouteRow) (start_idx end_idx : Nat) : RoutePayload :=
  { bus_number := route.bus_number
    departure_time := route.departure_time
    duration_minutes := route.duration_minutes
    stops := listSlice route.stops start_idx (end_idx + 1) }

/-- The sort key of `find_route`: with a time filter
`(departure - after, duration, route_id)`, otherwise
`(duration, departure, route_id)`. -/
def routeKey (after : Option Nat) (route : RouteRow) : Int × Int × String :=
  match after with
  | some am => ((route.departure_minutes : Int) - (am : Int), route.duration_minutes, route.route_id)
  | none => (route.duration_minutes, (route.departure_minutes : Int), route.route_id)

/-- `after_minutes is not None and route.departure_minutes < after_minutes`:
the `continue` condition of `find_route`'s loop. -/
def belowFilter (after : Option Nat) (dep : Nat) : Bool :=
  match after with
  | some am => decide (dep < am)
  | none => false

/-- The `matches` list built by `find_route`'s loop, in route order:
routes with a leg, filtered by the departure-time filter. -/
def findRouteMatches (routes : List RouteRow) (rf rt : String) (after : Option Nat) :
    List ((Int × Int × String) × RoutePayload) :=
  routes.filterMap (fun route =>
    match routeLeg route.stops rf rt with
    | none => none
    | some se =>
      if belowFilter after route.departure_minutes then none
      else some (routeKey after route, mkRoutePayload route se.1 se.2))

/-- `find_route`.  Python's `if not resolved_from or not resolved_to` is
falsy for `None` and for the empty string, hence the extra emptiness test. -/
def findRoute (routes : List RouteRow) (from_stop to_stop after_time : String) :
    Option RoutePayload :=
  match resolveStop routes from_stop, resolveStop routes to_stop with
  | some rf, some rt =>
    if rf = "" ∨ rt = "" then none
    else
      let after := parseTime after_time
      (pickFirstMin (fun x y => key3Lt x.1 y.1) (findRouteMatches routes rf rt after)).map (·.2)
  | _, _ => none

/-! ### suggest_alternative -/

/-- A first- or second-leg candidate dict of `suggest_alternative`. -/
structure LegInfo where
  transfer_stop : String
  bus_number : String
  departure_time : String
  departure_minutes : Nat
  duration_minutes : Int
  stops : List String
deriving DecidableEq, Repr

/-- The first-leg payload for `route`, boarding at `start_idx`, alighting at
`transfer_idx` (in range for every caller, whence the harmless `getD`). -/
def mkFirstLeg (route : RouteRow) (start_idx transfer_idx : Nat) : LegInfo :=
  { transfer_stop := route.stops.getD transfer_idx ""
    bus_number := route.bus_number
    departure_time := route.departure_time
    departure_minutes := route.departure_minutes
    duration_minutes := segmentDuration route start_idx transfer_idx
    stops := listSlice route.stops start_idx (transfer_idx + 1) }

/-- The second-leg payload for `route`, boarding at `transfer_idx`,
alighting at `end_idx`. -/
def mkSecondLeg (route : RouteRow) (transfer_idx end_idx : Nat) : LegInfo :=
  { transfer_stop := route.stops.getD transfer_idx ""
    bus_number := route.bus_number
    departure_time := route.departure_time
    departure_minutes := route.departure_minutes
    duration_minutes := segmentDuration route transfer_idx end_idx
    stops := listSlice route.stops transfer_idx (end_idx + 1) }

/-- `after_minutes is None or route.departure_minutes >= after_minutes`. -/
def passesFilter (after : Option Nat) (dep : Nat) : Bool :=
  match after with
  | none => true
  | some am => decide (am ≤ dep)

/-- The loop body of `suggest_alternative` that extends `first_legs` for one
route: when the route contains the resolved `from` stop at first index `s`
and passes the time filter, append one leg per transfer index in
`range(s + 1, len(stops))`. -/
def firstLegsStep (rf : String) (after : Option Nat) (acc : List LegInfo) (route : RouteRow) :
    List LegInfo :=
  match findStopIndex route.stops rf with
  | some start_idx =>
    if passesFilter after route.departure_minutes then
      acc ++ (List.range' (start_idx + 1) (route.stops.length - (start_idx + 1))).map
        (fun transfer_idx => mkFirstLeg route start_idx transfer_idx)
    else acc
  | none => acc

/-- The `first_legs` list of `suggest_alternative`. -/
def firstLegs (routes : List RouteRow) (rf : String) (after : Option Nat) : List LegInfo :=
  routes.foldl (firstLegsStep rf after) []

/-- The loop body of `suggest_alternative` that extends the second-leg
candidates for one route: when the route contains the resolved `to` stop at
first index `e`, append one leg per transfer index in `range(0, e)`.  No
time filter is applied here. -/
def secondLegsStep (rt : String) (acc : List LegInfo) (route : RouteRow) : List LegInfo :=
  match findStopIndex route.stops rt with
  | some end_idx =>
    acc ++ (List.range' 0 end_idx).map (fun transfer_idx => mkSecondLeg route transfer_idx end_idx)
  | none => acc

/-- All second legs of `suggest_alternative`, in construction order. -/
def secondLegsAll (routes : List RouteRow) (rt : String) : List LegInfo :=
  routes.foldl (secondLegsStep rt) []

/-- `second_legs_by_transfer.get(key, [])`: the dict maps each normalized
transfer stop to the legs appended under that key in traversal order, so the
lookup is the in-order sublist of second legs with that normalized transfer
stop. -/
def secondLegsFor (routes : List RouteRow) (rt : String) (key : String) : List LegInfo :=
  (secondLegsAll routes rt).filter (fun leg => decide (normalize leg.transfer_stop = key))

/-- The key of `_best_second_leg_for_first_leg`: the wait until the second
departure, wrapped forward a day when negative, then duration and bus. -/
def leg2Key (first_departure : Nat) (leg : LegInfo) : Int × Int × String :=
  let wait : Int := (leg.departure_minutes : Int) - (first_departure : Int)
  let wait := if wait < 0 then wait + 24 * 60 else wait
  (wait, leg.duration_minutes, leg.bus_number)

/-- `_best_second_leg_for_first_leg`: `sorted(candidates, key=key_fn)[0]`. -/
def bestSecondLeg (candidates : List LegInfo) (first_departure : Nat) : Option LegInfo :=
  pickFirstMin (fun x y => key3Lt (leg2Key first_departure x) (leg2Key first_departure y))
    candidates

structure LegPayload where
  bus_number : String
  departure_time : String
  duration_minutes : Int
  stops : List String
deriving DecidableEq, Repr

/-- The transfer-plan payload (the constant `"type": "transfer"` entry of the
Python dict is omitted). -/
structure TransferPlan where
  from_stop : String
  to_stop : String
  transfer_stop : String
  leg1 : LegPayload
  leg2 : LegPayload
  total_duration_minutes : Int
deriving DecidableEq, Repr

def legPayload (leg : LegInfo) : LegPayload :=
  { bus_number := leg.bus_number
    departure_time := leg.departure_time
    duration_minutes := leg.duration_minutes
    stops := leg.stops }

/-- Python `l[0]` on the (always nonempty) stop slices. -/
def pyHead (l : List String) : String := l.getD 0 ""

/-- Python `l[-1]` on the (always nonempty) stop slices. -/
def pyLast (l : List String) : String := (l.getLast?).getD ""

/-- `if best_plan is None or sort_key < best_plan[0]: best_plan = (sort_key, payload)`. -/
def planUpdate (best : Option ((Int × Int × Int × String) × TransferPlan))
    (cand : (Int × Int × Int × String) × TransferPlan) :
    Option ((Int × Int × Int × String) × TransferPlan) :=
  match best with
  | none => some cand
  | some b => if key4Lt cand.1 b.1 then some cand else best

/-- The body of `suggest_alternative`'s `for leg1 in first_legs` loop:
match second legs by normalized transfer stop, pick the best one, drop the
pairing when it degenerates to the same end-to-end trip, and keep the plan
with the smallest `(total, dep1, dep2, bus1)` key. -/
def considerLeg1 (routes : List RouteRow) (rf rt : String)
    (best : Option ((Int × Int × Int × String) × TransferPlan)) (leg1 : LegInfo) :
    Option ((Int × Int × Int × String) × TransferPlan) :=
  let transfer_key := normalize leg1.transfer_stop
  let leg2_candidates := secondLegsFor routes rt transfer_key
  match bestSecondLeg leg2_candidates leg1.departure_minutes with
  | none => best
  | some leg2 =>
    if normalize (pyHead leg1.stops) = normalize (pyHead leg2.stops) ∧
        normalize (pyLast leg1.stops) = normalize (pyLast leg2.stops) then best
    else
      let wait_minutes : Int := max 0 ((leg2.departure_minutes : Int) - (leg1.departure_minutes : Int))
      let total_duration := leg1.duration_minutes + leg2.duration_minutes + wait_minutes
      let sort_key : Int × Int × Int × String :=
        (total_duration, (leg1.departure_minutes : Int), (leg2.departure_minutes : Int),
          leg1.bus_number)
      let payload : TransferPlan :=
        { from_stop := rf
          to_stop := rt
          transfer_stop := leg1.transfer_stop
          leg1 := legPayload leg1
          leg2 := legPayload leg2
          total_duration_minutes := total_duration }
      planUpdate best (sort_key, payload)

/-- `suggest_alternative`. -/
def suggestAlternative (routes : List RouteRow) (from_stop to_stop after_time : String) :
    Option TransferPlan :=
  match resolveStop routes from_stop, resolveStop routes to_stop with
  | some rf, some rt =>
    if rf = "" ∨ rt = "" then none
    else
      let after := parseTime after_time
      ((firstLegs routes rf after).foldl (considerLeg1 routes rf rt) none).map (·.2)
  | _, _ => none

/-! ### Order lemmas for the sort keys -/

theorem charListLt_irrefl : ∀ l : List Char, charListLt l l = false := by
  intro l
  induction l with
  | nil => rfl
  | cons x xs ih => simp [charListLt, ih]

theorem charListLt_trans :
    ∀ a b c : List Char, charListLt a b = true → charListLt b c = true →
      charListLt a c = true := by
  intro a
  induction a with
  | nil =>
    intro b c hab hbc
    cases b with
    | nil => simp [charListLt] at hab
    | cons y ys =>
      cases c with
      | nil => simp [charListLt] at hbc
      | cons z zs => simp [charListLt]
  | cons x xs ih =>
    intro b c hab hbc
    cases b with
    | nil => simp [charListLt] at hab
    | cons y ys =>
      cases c with
      | nil => simp [charListLt] at hbc
      | cons z zs =>
        simp only [charListLt, Bool.or_eq_true, Bool.and_eq_true, decide_eq_true_eq] at hab hbc ⊢
        rcases hab with h1 | ⟨rfl, h1⟩
        · rcases hbc with h2 | ⟨rfl, h2⟩
          · exact Or.inl (Nat.lt_trans h1 h2)
          · exact Or.inl h1
        · rcases hbc with h2 | ⟨rfl, h2⟩
          · exact Or.inl h2
          · exact Or.inr ⟨rfl, ih ys zs h1 h2⟩

theorem char_eq_of_toNat_eq {a b : Char} (h : a.toNat = b.toNat) : a = b := by
  apply Char.eq_of_val_eq
  apply UInt32.eq_of_val_eq
  exact Fin.ext h

theorem charListLt_total :
    ∀ a b : List Char, a = b ∨ charListLt a b = true ∨ charListLt b a = true := by
  intro a
  induction a with
  | nil =>
    intro b
    cases b with
    | nil => exact Or.inl rfl
    | cons y ys => exact Or.inr (Or.inl (by simp [charListLt]))
  | cons x xs ih =>
    intro b
    cases b with
    | nil => exact Or.inr (Or.inr (by simp [charListLt]))
    | cons y ys =>
      rcases Nat.lt_trichotomy x.toNat y.toNat with h | h | h
      · exact Or.inr (Or.inl (by simp [charListLt, h]))
      · have hxy : x = y := char_eq_of_toNat_eq h
        subst hxy
        rcases ih ys with h2 | h2 | h2
        · exact Or.inl (by rw [h2])
        · exact Or.inr (Or.inl (by simp [charListLt, h2]))
        · exact Or.inr (Or.inr (by simp [charListLt, h2]))
      · exact Or.inr (Or.inr (by simp [charListLt, h]))

theorem strLtB_irrefl (s : String) : strLtB s s = false := charListLt_irrefl s.data

theorem strLtB_trans {a b c : String} (h1 : strLtB a b = true) (h2 : strLtB b c = true) :
    strLtB a c = true := charListLt_trans a.data b.data c.data h1 h2

theorem strLtB_total (a b : String) : a = b ∨ strLtB a b = true ∨ strLtB b a = true := by
  rcases charListLt_total a.data b.data with h | h | h
  · left
    cases a; cases b; exact congrArg String.mk h
  · exact Or.inr (Or.inl h)
  · exact Or.inr (Or.inr h)

theorem key3Lt_irrefl (k : Int × Int × String) : key3Lt k k = false := by
  simp [key3Lt, strLtB_irrefl]

theorem key3Lt_trans {a b c : Int × Int × String}
    (h1 : key3Lt a b = true) (h2 : key3Lt b c = true) : key3Lt a c = true := by
  simp only [key3Lt, Bool.or_eq_true, Bool.and_eq_true, decide_eq_true_eq] at h1 h2 ⊢
  rcases h1 with h1 | ⟨e1, h1 | ⟨e1', h1⟩⟩ <;>
    rcases h2 with h2 | ⟨e2, h2 | ⟨e2', h2⟩⟩ <;>
      try (left; omega)
  · exact Or.inr ⟨e1.trans e2, Or.inl (by omega)⟩
  · exact Or.inr ⟨e1.trans e2, Or.inl (by omega)⟩
  · exact Or.inr ⟨e1.trans e2, Or.inl (by omega)⟩
  · exact Or.inr ⟨e1.trans e2, Or.inr ⟨e1'.trans e2', strLtB_trans h1 h2⟩⟩

theorem key3Lt_total (a b : Int × Int × String) :
    a = b ∨ key3Lt a b = true ∨ key3Lt b a = true := by
  obtain ⟨a1, a2, a3⟩ := a
  obtain ⟨b1, b2, b3⟩ := b
  rcases Int.lt_trichotomy a1 b1 with h | h | h
  · exact Or.inr (Or.inl (by simp [key3Lt, h]))
  · subst h
    rcases Int.lt_trichotomy a2 b2 with h | h | h
    · exact Or.inr (Or.inl (by simp [key3Lt, h]))
    · subst h
      rcases strLtB_total a3 b3 with h | h | h
      · exact Or.inl (by rw [h])
      · exact Or.inr (Or.inl (by simp [key3Lt, h]))
      · exact Or.inr (Or.inr (by simp [key3Lt, h]))
    · exact Or.inr (Or.inr (by simp [key3Lt, h]))
  · exact Or.inr (Or.inr (by simp [key3Lt, h]))

theorem key4Lt_irrefl (k : Int × Int × Int × String) : key4Lt k k = false := by
  simp [key4Lt, key3Lt_irrefl]

theorem key4Lt_trans {a b c : Int × Int × Int × String}
    (h1 : key4Lt a b = true) (h2 : key4Lt b c = true) : key4Lt a c = true := by
  simp only [key4Lt, Bool.or_eq_true, Bool.and_eq_true, decide_eq_true_eq] at h1 h2 ⊢
  rcases h1 with h1 | ⟨e1, h1⟩ <;> rcases h2 with h2 | ⟨e2, h2⟩
  · left; omega
  · left; omega
  · left; omega
  · exact Or.inr ⟨e1.trans e2, key3Lt_trans h1 h2⟩

theorem key4Lt_total (a b : Int × Int × Int × String) :
    a = b ∨ key4Lt a b = true ∨ key4Lt b a = true := by
  obtain ⟨a1, ar⟩ := a
  obtain ⟨b1, br⟩ := b
  rcases Int.lt_trichotomy a1 b1 with h | h | h
  · exact Or.inr (Or.inl (by simp [key4Lt, h]))
  · subst h
    rcases key3Lt_total ar br with h | h | h
    · exact Or.inl (by rw [h])
    · exact Or.inr (Or.inl (by simp [key4Lt, h]))
    · exact Or.inr (Or.inr (by simp [key4Lt, h]))
  · exact Or.inr (Or.inr (by simp [key4Lt, h]))

/-! ### pickFirstMin: membership and minimality -/

theorem foldlMin_mem {α : Type} (lt : α → α → Bool) :
    ∀ (xs : List α) (best : α),
      xs.foldl (fun b y => if lt y b then y else b) best ∈ best :: xs := by
  intro xs
  induction xs with
  | nil => intro best; exact List.mem_singleton.mpr rfl
  | cons y ys ih =>
    intro best
    by_cases hlt : lt y best = true
    · rw [List.foldl_cons, if_pos hlt]
      rcases List.mem_cons.mp (ih y) with h | h
      · exact List.mem_cons.mpr (Or.inr (List.mem_cons.mpr (Or.inl h)))
      · exact List.mem_cons.mpr (Or.inr (List.mem_cons.mpr (Or.inr h)))
    · rw [List.foldl_cons, if_neg hlt]
      rcases List.mem_cons.mp (ih best) with h | h
      · exact List.mem_cons.mpr (Or.inl h)
      · exact List.mem_cons.mpr (Or.inr (List.mem_cons.mpr (Or.inr h)))

theorem foldlMin_min {α : Type} (lt : α → α → Bool)
    (hirr : ∀ a, lt a a = false)
    (htrans : ∀ a b c, lt a b = true → lt b c = true → lt a c = true)
    (hconn : ∀ a b c, lt a b = false → lt a c = true → lt b c = true) :
    ∀ (xs : List α) (best : α), ∀ z ∈ best :: xs,
      lt z (xs.foldl (fun b y => if lt y b then y else b) best) = false := by
  intro xs
  induction xs with
  | nil =>
    intro best z hz
    rcases List.mem_cons.mp hz with rfl | h
    · exact hirr z
    · simp at h
  | cons y ys ih =>
    intro best z hz
    by_cases hlt : lt y best = true
    · rw [List.foldl_cons, if_pos hlt]
      rcases List.mem_cons.mp hz with rfl | hz2
      · -- `z = best`, dropped in favour of the strictly smaller `y`
        cases hq : lt z (ys.foldl (fun b w => if lt w b then w else b) y) with
        | false => rfl
        | true =>
          have h2 := htrans y z _ hlt hq
          have h3 := ih y y (List.mem_cons_self _ _)
          rw [h3] at h2
          exact absurd h2 (by simp)
      · rcases List.mem_cons.mp hz2 with rfl | hz3
        · exact ih _ z (List.mem_cons_self _ _)
        · exact ih _ z (List.mem_cons.mpr (Or.inr hz3))
    · rw [List.foldl_cons, if_neg hlt]
      rw [Bool.not_eq_true] at hlt
      rcases List.mem_cons.mp hz with rfl | hz2
      · exact ih z z (List.mem_cons_self _ _)
      · rcases List.mem_cons.mp hz2 with rfl | hz3
        · -- `z = y`, which lost the comparison with `best`
          cases hq : lt z (ys.foldl (fun b w => if lt w b then w else b) best) with
          | false => rfl
          | true =>
            have h2 := hconn z best _ hlt hq
            have h3 := ih best best (List.mem_cons_self _ _)
            rw [h3] at h2
            exact absurd h2 (by simp)
        · exact ih best z (List.mem_cons.mpr (Or.inr hz3))

theorem pickFirstMin_mem {α : Type} (lt : α → α → Bool) (l : List α) (x : α)
    (h : pickFirstMin lt l = some x) : x ∈ l := by
  cases l with
  | nil => simp [pickFirstMin] at h
  | cons a as =>
    simp only [pickFirstMin, Option.some.injEq] at h
    exact h ▸ foldlMin_mem lt as a

theorem pickFirstMin_min {α : Type} (lt : α → α → Bool)
    (hirr : ∀ a, lt a a = false)
    (htrans : ∀ a b c, lt a b = true → lt b c = true → lt a c = true)
    (hconn : ∀ a b c, lt a b = false → lt a c = true → lt b c = true)
    (l : List α) (x : α) (h : pickFirstMin lt l = some x) :
    ∀ z ∈ l, lt z x = false := by
  cases l with
  | nil => simp [pickFirstMin] at h
  | cons a as =>
    simp only [pickFirstMin, Option.some.injEq] at h
    intro z hz
    exact h ▸ foldlMin_min lt hirr htrans hconn as a z hz

/-- The three `foldlMin` hypotheses for a strict total order pulled back
along a key function. -/
theorem liftKeyHyps {α β : Type} (key : α → β) (klt : β → β → Bool)
    (kirr : ∀ a, klt a a = false)
    (ktrans : ∀ {a b c}, klt a b = true → klt b c = true → klt a c = true)
    (ktot : ∀ a b, a = b ∨ klt a b = true ∨ klt b a = true) :
    (∀ a : α, klt (key a) (key a) = false) ∧
    (∀ a b c : α, klt (key a) (key b) = true → klt (key b) (key c) = true →
      klt (key a) (key c) = true) ∧
    (∀ a b c : α, klt (key a) (key b) = false → klt (key a) (key c) = true →
      klt (key b) (key c) = true) := by
  refine ⟨fun a => kirr (key a), fun a b c h1 h2 => ktrans h1 h2, fun a b c h1 h2 => ?_⟩
  rcases ktot (key a) (key b) with he | hlt | hlt
  · rw [← he]; exact h2
  · rw [hlt] at h1; exact absurd h1 (by simp)
  · exact ktrans hlt h2

/-! ### indexOf?, slices and leg characterizations -/

theorem indexOf?_spec :
    ∀ (l : List String) (key : String) (n : Nat), indexOf? l key = some n →
      l.get? n = some key ∧ ∀ i, i < n → l.get? i ≠ some key := by
  intro l
  induction l with
  | nil => intro key n h; simp [indexOf?] at h
  | cons x xs ih =>
    intro key n h
    by_cases hx : x = key
    · rw [indexOf?, if_pos hx] at h
      cases h
      exact ⟨by simp [hx], fun i hi => absurd hi (Nat.not_lt_zero i)⟩
    · rw [indexOf?, if_neg hx] at h
      rcases Option.map_eq_some'.mp h with ⟨m, hm, rfl⟩
      obtain ⟨h1, h2⟩ := ih key m hm
      refine ⟨h1, fun i hi => ?_⟩
      cases i with
      | zero => simp [Option.some.injEq]; exact fun hc => hx hc
      | succ j => exact h2 j (Nat.lt_of_succ_lt_succ hi)

theorem get?_some_lt_length {α : Type} {l : List α} {n : Nat} {a : α}
    (h : l.get? n = some a) : n < l.length := by
  by_contra hn
  rw [List.get?_eq_none.mpr (Nat.le_of_not_lt hn)] at h
  exact Option.noConfusion h

theorem listSlice_get? {α : Type} (l : List α) (s e i : Nat) (h : i < e - s) :
    (listSlice l s e).get? i = l.get? (s + i) := by
  unfold listSlice
  rw [List.get?_eq_getElem?, List.getElem?_take_of_lt h, List.getElem?_drop,
    ← List.get?_eq_getElem?]

theorem listSlice_length {α : Type} (l : List α) (s e : Nat) :
    (listSlice l s e).length = min (e - s) (l.length - s) := by
  simp [listSlice]

theorem pyHead_slice (l : List String) (s e : Nat) (hse : s < e) :
    pyHead (listSlice l s e) = l.getD s "" := by
  have h0 : (0 : Nat) < e - s := by omega
  have hg := listSlice_get? l s e 0 h0
  rw [Nat.add_zero] at hg
  unfold pyHead
  rw [List.getD_eq_getElem?_getD, List.getD_eq_getElem?_getD, ← List.get?_eq_getElem?,
    ← List.get?_eq_getElem?, hg]

theorem pyLast_slice (l : List String) (s t : Nat) (hst : s ≤ t) (ht : t < l.length) :
    pyLast (listSlice l s (t + 1)) = l.getD t "" := by
  have hlen : (listSlice l s (t + 1)).length = t + 1 - s := by
    rw [listSlice_length]; omega
  have hg := listSlice_get? l s (t + 1) (t - s) (by omega)
  have hst2 : s + (t - s) = t := by omega
  rw [hst2] at hg
  unfold pyLast
  rw [List.getLast?_eq_getElem?, hlen]
  have h3 : t + 1 - s - 1 = t - s := by omega
  rw [h3, ← List.get?_eq_getElem?, hg, List.getD_eq_getElem?_getD, List.get?_eq_getElem?]

/-- A foldl whose step appends a per-element block is the flatMap of the
blocks. -/
theorem foldl_append_eq_flatMap {β α : Type} (step : List α → β → List α) (g : β → List α)
    (hstep : ∀ acc r, step acc r = acc ++ g r) :
    ∀ (l : List β) (init : List α), l.foldl step init = init ++ l.flatMap g := by
  intro l
  induction l with
  | nil => intro init; simp
  | cons r rs ih =>
    intro init
    rw [List.foldl_cons, hstep, ih, List.flatMap_cons, List.append_assoc]

/-- The per-route block of `first_legs`. -/
def firstLegsOf (rf : String) (after : Option Nat) (route : RouteRow) : List LegInfo :=
  match findStopIndex route.stops rf with
  | some start_idx =>
    if passesFilter after route.departure_minutes then
      (List.range' (start_idx + 1) (route.stops.length - (start_idx + 1))).map
        (fun transfer_idx => mkFirstLeg route start_idx transfer_idx)
    else []
  | none => []

theorem firstLegsStep_eq (rf : String) (after : Option Nat) (acc : List LegInfo)
    (route : RouteRow) : firstLegsStep rf after acc route = acc ++ firstLegsOf rf after route := by
  unfold firstLegsStep firstLegsOf
  rcases hfi : findStopIndex route.stops rf with _ | s
  · simp only [hfi, List.append_nil]
  · simp only [hfi]
    by_cases hp : passesFilter after route.departure_minutes = true
    · rw [if_pos hp, if_pos hp]
    · rw [if_neg hp, if_neg hp, List.append_nil]

theorem firstLegs_eq_flatMap (routes : List RouteRow) (rf : String) (after : Option Nat) :
    firstLegs routes rf after = routes.flatMap (firstLegsOf rf after) := by
  unfold firstLegs
  rw [foldl_append_eq_flatMap _ _ (firstLegsStep_eq rf after) routes [], List.nil_append]

/-- The per-route block of the second-leg candidates. -/
def secondLegsOf (rt : String) (route : RouteRow) : List LegInfo :=
  match findStopIndex route.stops rt with
  | some end_idx =>
    (List.range' 0 end_idx).map (fun transfer_idx => mkSecondLeg route transfer_idx end_idx)
  | none => []

theorem secondLegsStep_eq (rt : String) (acc : List LegInfo) (route : RouteRow) :
    secondLegsStep rt acc route = acc ++ secondLegsOf rt route := by
  unfold secondLegsStep secondLegsOf
  rcases hfi : findStopIndex route.stops rt with _ | e
  · simp only [hfi, List.append_nil]
  · simp only [hfi]

theorem secondLegsAll_eq_flatMap (routes : List RouteRow) (rt : String) :
    secondLegsAll routes rt = routes.flatMap (secondLegsOf rt) := by
  unfold secondLegsAll
  rw [foldl_append_eq_flatMap _ _ (secondLegsStep_eq rt) routes [], List.nil_append]

theorem mem_range'_iff {i s n : Nat} : i ∈ List.range' s n ↔ s ≤ i ∧ i < s + n := by
  rw [List.mem_range']
  constructor
  · rintro ⟨k, hk, rfl⟩; omega
  · rintro ⟨h1, h2⟩; exact ⟨i - s, by omega, by omega⟩

/-- Membership in `first_legs`: some route contains the resolved `from` stop
at first index `s`, passes the filter, and the leg alights at a strictly
later in-range index. -/
theorem mem_firstLegs {routes : List RouteRow} {rf : String} {after : Option Nat}
    {leg : LegInfo} (h : leg ∈ firstLegs routes rf after) :
    ∃ route ∈ routes, ∃ s t : Nat,
      findStopIndex route.stops rf = some s ∧
      passesFilter after route.departure_minutes = true ∧
      s < t ∧ t < route.stops.length ∧ leg = mkFirstLeg route s t := by
  rw [firstLegs_eq_flatMap] at h
  rcases List.mem_flatMap.mp h with ⟨route, hr, hleg⟩
  unfold firstLegsOf at hleg
  rcases hfi : findStopIndex route.stops rf with _ | s
  · simp only [hfi] at hleg; simp at hleg
  · simp only [hfi] at hleg
    by_cases hp : passesFilter after route.departure_minutes = true
    · rw [if_pos hp] at hleg
      rcases List.mem_map.mp hleg with ⟨t, ht, rfl⟩
      rcases mem_range'_iff.mp ht with ⟨h1, h2⟩
      exact ⟨route, hr, s, t, hfi, hp, by omega, by omega, rfl⟩
    · rw [if_neg hp] at hleg; simp at hleg

/-- Membership in the second-leg candidates: some route contains the
resolved `to` stop at first index `e`, and the leg boards at a strictly
earlier index. -/
theorem mem_secondLegsAll {routes : List RouteRow} {rt : String} {leg : LegInfo}
    (h : leg ∈ secondLegsAll routes rt) :
    ∃ route ∈ routes, ∃ u e : Nat,
      findStopIndex route.stops rt = some e ∧
      u < e ∧ leg = mkSecondLeg route u e := by
  rw [secondLegsAll_eq_flatMap] at h
  rcases List.mem_flatMap.mp h with ⟨route, hr, hleg⟩
  unfold secondLegsOf at hleg
  rcases hfi : findStopIndex route.stops rt with _ | e
  · simp only [hfi] at hleg; simp at hleg
  · simp only [hfi] at hleg
    rcases List.mem_map.mp hleg with ⟨u, hu, rfl⟩
    rcases mem_range'_iff.mp hu with ⟨h1, h2⟩
    exact ⟨route, hr, u, e, hfi, by omega, rfl⟩

/-- Specification of `_route_leg`: the two indices are the first occurrence
of the `from` key and the first later occurrence of the `to` key, under
normalization. -/
theorem routeLeg_spec {stops : List String} {f t : String} {s e : Nat}
    (h : routeLeg stops f t = some (s, e)) :
    s < e ∧ e < stops.length ∧
    (∃ vs, stops.get? s = some vs ∧ normalize vs = normalize f) ∧
    (∃ ve, stops.get? e = some ve ∧ normalize ve = normalize t) ∧
    (∀ i, i < s → ∀ v, stops.get? i = some v → normalize v ≠ normalize f) ∧
    (∀ i, s < i → i < e → ∀ v, stops.get? i = some v → normalize v ≠ normalize t) := by
  unfold routeLeg at h
  rcases h1 : indexOf? (stops.map normalize) (normalize f) with _ | start
  · simp only [h1] at h; exact absurd h (by simp)
  · simp only [h1] at h
    rcases h2 : indexOf? ((stops.map normalize).drop (start + 1)) (normalize t) with _ | off
    · simp only [h2] at h; exact absurd h (by simp)
    · simp only [h2, Option.some.injEq, Prod.mk.injEq] at h
      obtain ⟨rfl, rfl⟩ : start = s ∧ start + 1 + off = e := h
      obtain ⟨hs1, hs2⟩ := indexOf?_spec _ _ _ h1
      obtain ⟨ht1, ht2⟩ := indexOf?_spec _ _ _ h2
      rw [List.get?_eq_getElem?, List.getElem?_drop, ← List.get?_eq_getElem?] at ht1
      have hget : ∀ i : Nat, (stops.map normalize).get? i = (stops.get? i).map normalize := by
        intro i
        rw [List.get?_eq_getElem?, List.get?_eq_getElem?, List.getElem?_map]
      rw [hget] at hs1 ht1
      rcases Option.map_eq_some'.mp hs1 with ⟨vs, hvs, hvs2⟩
      rcases Option.map_eq_some'.mp ht1 with ⟨ve, hve, hve2⟩
      have helen : start + 1 + off < stops.length := by
        have := get?_some_lt_length hve
        omega
      refine ⟨by omega, helen, ⟨vs, hvs, hvs2⟩, ⟨ve, hve, hve2⟩, ?_, ?_⟩
      · intro i hi v hv hn
        have := hs2 i hi
        rw [hget, hv] at this
        exact this (by simp [hn])
      · intro i hi1 hi2 v hv hn
        have := ht2 (i - (start + 1)) (by omega)
        rw [List.get?_eq_getElem?, List.getElem?_drop, ← List.get?_eq_getElem?] at this
        have hidx : start + 1 + (i - (start + 1)) = i := by omega
        rw [hidx, hget, hv] at this
        exact this (by simp [hn])

/-! ### find_route: characterization and claims -/

theorem belowFilter_eq_false_iff {after : Option Nat} {dep : Nat} :
    belowFilter after dep = false ↔ passesFilter after dep = true := by
  rcases after with _ | am
  · simp [belowFilter, passesFilter]
  · simp only [belowFilter, passesFilter, decide_eq_false_iff_not, decide_eq_true_eq]
    omega

theorem findRouteMatches_mem_iff {routes : List RouteRow} {rf rt : String}
    {after : Option Nat} {kp : (Int × Int × String) × RoutePayload} :
    kp ∈ findRouteMatches routes rf rt after ↔
      ∃ route ∈ routes, ∃ s e : Nat,
        routeLeg route.stops rf rt = some (s, e) ∧
        passesFilter after route.departure_minutes = true ∧
        kp = (routeKey after route, mkRoutePayload route s e) := by
  rw [findRouteMatches, List.mem_filterMap]
  constructor
  · rintro ⟨route, hr, hf⟩
    rcases hl : routeLeg route.stops rf rt with _ | se
    · simp only [hl] at hf; exact absurd hf (by simp)
    · simp only [hl] at hf
      by_cases hd : belowFilter after route.departure_minutes = true
      · rw [if_pos hd] at hf; exact absurd hf (by simp)
      · rw [if_neg hd] at hf
        rw [Bool.not_eq_true] at hd
        simp only [Option.some.injEq] at hf
        exact ⟨route, hr, se.1, se.2, by rw [hl],
          belowFilter_eq_false_iff.mp hd, hf.symm⟩
  · rintro ⟨route, hr, s, e, hl, hp, rfl⟩
    refine ⟨route, hr, ?_⟩
    have hb : belowFilter after route.departure_minutes = false :=
      belowFilter_eq_false_iff.mpr hp
    simp only [hl, hb, Bool.false_eq_true, if_false]

theorem findRoute_some_elim {routes : List RouteRow} {f t a : String} {p : RoutePayload}
    (h : findRoute routes f t a = some p) :
    ∃ rf rt, resolveStop routes f = some rf ∧ resolveStop routes t = some rt ∧
      ∃ kp, pickFirstMin (fun x y => key3Lt x.1 y.1)
          (findRouteMatches routes rf rt (parseTime a)) = some kp ∧ kp.2 = p := by
  unfold findRoute at h
  rcases hrf : resolveStop routes f with _ | rf
  · simp only [hrf] at h
    exact absurd h (by simp)
  · rcases hrt : resolveStop routes t with _ | rt
    · simp only [hrf, hrt] at h
      exact absurd h (by simp)
    · simp only [hrf, hrt] at h
      by_cases he : rf = "" ∨ rt = ""
      · rw [if_pos he] at h; exact absurd h (by simp)
      · rw [if_neg he] at h
        rcases Option.map_eq_some'.mp h with ⟨kp, hkp, hp2⟩
        exact ⟨rf, rt, rfl, rfl, kp, hkp, hp2⟩

/-- C1: a successful `find_route` returns the contiguous slice of one
route's stops from the first occurrence of the resolved `from` stop to the
first strictly later occurrence of the resolved `to` stop, so the slice
starts at the resolved `from`, ends at the resolved `to`, and the `from`
index is strictly smaller (all comparisons under normalization). -/
theorem findRoute_slice_correct (routes : List RouteRow) (f t a : String) (p : RoutePayload)
    (h : findRoute routes f t a = some p) :
    ∃ rf rt, resolveStop routes f = some rf ∧ resolveStop routes t = some rt ∧
      ∃ route ∈ routes, ∃ s e : Nat,
        s < e ∧ e < route.stops.length ∧
        p.stops = listSlice route.stops s (e + 1) ∧
        (∃ vs, route.stops.get? s = some vs ∧ normalize vs = normalize rf) ∧
        (∃ ve, route.stops.get? e = some ve ∧ normalize ve = normalize rt) ∧
        (∀ i, i < s → ∀ v, route.stops.get? i = some v → normalize v ≠ normalize rf) ∧
        (∀ i, s < i → i < e → ∀ v, route.stops.get? i = some v →
          normalize v ≠ normalize rt) := by
  rcases findRoute_some_elim h with ⟨rf, rt, hrf, hrt, kp, hpick, hp2⟩
  rcases findRouteMatches_mem_iff.mp (pickFirstMin_mem _ _ _ hpick) with
    ⟨route, hr, s, e, hl, hfil, hkp⟩
  obtain ⟨h1, h2, h3, h4, h5, h6⟩ := routeLeg_spec hl
  refine ⟨rf, rt, hrf, hrt, route, hr, s, e, h1, h2, ?_, h3, h4, h5, h6⟩
  rw [← hp2, hkp]
  rfl

def c1Routes : List RouteRow :=
  [⟨"r1", "A", "C", "B30", "09:00", 540, 30, ["A", "B", "C"]⟩]

theorem findRoute_slice_correct_witness :
    findRoute c1Routes "A" "C" "" =
      some ⟨"B30", "09:00", 30, ["A", "B", "C"]⟩ ∧
    (∃ rf rt, resolveStop c1Routes "A" = some rf ∧ resolveStop c1Routes "C" = some rt ∧
      ∃ route ∈ c1Routes, ∃ s e : Nat,
        s < e ∧ e < route.stops.length ∧
        (⟨"B30", "09:00", 30, ["A", "B", "C"]⟩ : RoutePayload).stops =
          listSlice route.stops s (e + 1) ∧
        (∃ vs, route.stops.get? s = some vs ∧ normalize vs = normalize rf) ∧
        (∃ ve, route.stops.get? e = some ve ∧ normalize ve = normalize rt) ∧
        (∀ i, i < s → ∀ v, route.stops.get? i = some v → normalize v ≠ normalize rf) ∧
        (∀ i, s < i → i < e → ∀ v, route.stops.get? i = some v →
          normalize v ≠ normalize rt)) :=
  ⟨by decide, findRoute_slice_correct c1Routes "A" "C" ""
    ⟨"B30", "09:00", 30, ["A", "B", "C"]⟩ (by decide)⟩

/-- C3: when `after_time` parses, every record departing before the filter
is discarded, so a successful `find_route` returns the payload of a route
departing at or after the filter. -/
theorem findRoute_time_filter (routes : List RouteRow) (f t a : String) (am : Nat)
    (p : RoutePayload) (ha : parseTime a = some am) (h : findRoute routes f t a = some p) :
    ∃ rf rt, resolveStop routes f = some rf ∧ resolveStop routes t = some rt ∧
      ∃ route ∈ routes, ∃ s e : Nat,
        routeLeg route.stops rf rt = some (s, e) ∧
        p = mkRoutePayload route s e ∧
        p.departure_time = route.departure_time ∧
        am ≤ route.departure_minutes := by
  rcases findRoute_some_elim h with ⟨rf, rt, hrf, hrt, kp, hpick, hp2⟩
  rw [ha] at hpick
  rcases findRouteMatches_mem_iff.mp (pickFirstMin_mem _ _ _ hpick) with
    ⟨route, hr, s, e, hl, hfil, hkp⟩
  simp only [passesFilter, decide_eq_true_eq] at hfil
  refine ⟨rf, rt, hrf, hrt, route, hr, s, e, hl, ?_, ?_, hfil⟩
  · rw [← hp2, hkp]
  · rw [← hp2, hkp]
    rfl

def c3Routes : List RouteRow :=
  [⟨"r1", "A", "C", "B8", "08:00", 480, 45, ["A", "C"]⟩,
   ⟨"r2", "A", "C", "B930", "09:30", 570, 45, ["A", "C"]⟩]

theorem findRoute_time_filter_witness :
    parseTime "09:00" = some 540 ∧
    findRoute c3Routes "A" "C" "09:00" = some ⟨"B930", "09:30", 45, ["A", "C"]⟩ ∧
    (∃ rf rt, resolveStop c3Routes "A" = some rf ∧ resolveStop c3Routes "C" = some rt ∧
      ∃ route ∈ c3Routes, ∃ s e : Nat,
        routeLeg route.stops rf rt = some (s, e) ∧
        (⟨"B930", "09:30", 45, ["A", "C"]⟩ : RoutePayload) = mkRoutePayload route s e ∧
        (⟨"B930", "09:30", 45, ["A", "C"]⟩ : RoutePayload).departure_time =
          route.departure_time ∧
        540 ≤ route.departure_minutes) :=
  ⟨by decide, by decide, findRoute_time_filter c3Routes "A" "C" "09:00" 540
    ⟨"B930", "09:30", 45, ["A", "C"]⟩ (by decide) (by decide)⟩

/-- C4: with no time filter, a successful `find_route` returns a candidate
whose `(duration_minutes, departure_minutes, route_id)` key is lexicographically
minimal among all candidate routes (in particular, of two direct routes with
durations 30 and 45 it returns the 30-minute one — see the witness). -/
theorem findRoute_no_filter_returns_min (routes : List RouteRow) (f t a : String)
    (p : RoutePayload) (ha : parseTime a = none) (h : findRoute routes f t a = some p) :
    ∃ rf rt, resolveStop routes f = some rf ∧ resolveStop routes t = some rt ∧
      ∃ route ∈ routes, ∃ s e : Nat,
        routeLeg route.stops rf rt = some (s, e) ∧
        p = mkRoutePayload route s e ∧
        ∀ route2 ∈ routes, ∀ s2 e2 : Nat, routeLeg route2.stops rf rt = some (s2, e2) →
          key3Lt (routeKey none route2) (routeKey none route) = false := by
  rcases findRoute_some_elim h with ⟨rf, rt, hrf, hrt, kp, hpick, hp2⟩
  rw [ha] at hpick
  rcases findRouteMatches_mem_iff.mp (pickFirstMin_mem _ _ _ hpick) with
    ⟨route, hr, s, e, hl, hfil, hkp⟩
  refine ⟨rf, rt, hrf, hrt, route, hr, s, e, hl, by rw [← hp2, hkp], ?_⟩
  intro route2 hr2 s2 e2 hl2
  obtain ⟨hi, ht2, hc⟩ := liftKeyHyps
    (fun kp : (Int × Int × String) × RoutePayload => kp.1) key3Lt key3Lt_irrefl
    (fun h1 h2 => key3Lt_trans h1 h2) key3Lt_total
  have hmem2 : (routeKey none route2, mkRoutePayload route2 s2 e2) ∈
      findRouteMatches routes rf rt none :=
    findRouteMatches_mem_iff.mpr ⟨route2, hr2, s2, e2, hl2, rfl, rfl⟩
  have := pickFirstMin_min _ hi ht2 hc _ _ hpick _ hmem2
  rw [hkp] at this
  exact this

def c4Routes : List RouteRow :=
  [⟨"r45", "A", "C", "B45", "08:00", 480, 45, ["A", "C"]⟩,
   ⟨"r30", "A", "C", "B30", "09:00", 540, 30, ["A", "C"]⟩]

theorem findRoute_no_filter_returns_min_witness :
    findRoute c4Routes "A" "C" "" = some ⟨"B30", "09:00", 30, ["A", "C"]⟩ ∧
    (∃ rf rt, resolveStop c4Routes "A" = some rf ∧ resolveStop c4Routes "C" = some rt ∧
      ∃ route ∈ c4Routes, ∃ s e : Nat,
        routeLeg route.stops rf rt = some (s, e) ∧
        (⟨"B30", "09:00", 30, ["A", "C"]⟩ : RoutePayload) = mkRoutePayload route s e ∧
        ∀ route2 ∈ c4Routes, ∀ s2 e2 : Nat, routeLeg route2.stops rf rt = some (s2, e2) →
          key3Lt (routeKey none route2) (routeKey none route) = false) :=
  ⟨by decide, findRoute_no_filter_returns_min c4Routes "A" "C" ""
    ⟨"B30", "09:00", 30, ["A", "C"]⟩ (by decide) (by decide)⟩

theorem parseTime_empty : parseTime "" = none := rfl

/-- C9: a non-empty `after_time` that does not parse as "HH:MM" behaves
exactly as if no filter had been supplied, for both `find_route` and
`suggest_alternative` (both functions are total, so no exception escapes). -/
theorem unparsable_time_ignored (routes : List RouteRow) (f t a : String)
    (hne : a ≠ "") (hp : parseTime a = none) :
    findRoute routes f t a = findRoute routes f t "" ∧
    suggestAlternative routes f t a = suggestAlternative routes f t "" := by
  constructor
  · unfold findRoute
    simp only [hp, parseTime_empty]
  · unfold suggestAlternative
    simp only [hp, parseTime_empty]

theorem unparsable_time_ignored_witness :
    ("noon" : String) ≠ "" ∧ parseTime "noon" = none ∧
    (findRoute c4Routes "A" "C" "noon" = findRoute c4Routes "A" "C" "" ∧
      suggestAlternative c4Routes "A" "C" "noon" = suggestAlternative c4Routes "A" "C" "") :=
  ⟨by decide, by decide,
    unparsable_time_ignored c4Routes "A" "C" "noon" (by decide) (by decide)⟩

/-! ### Stop resolution: failure and canonical-name behaviour -/

theorem aliasGet_eq_self {k : String} (h : ∀ p ∈ aliases, p.1 ≠ k) : aliasGet k = k := by
  unfold aliasGet
  have hfind : aliases.find? (fun p => decide (p.1 = k)) = none :=
    List.find?_eq_none.mpr (fun p hp => by simpa using h p hp)
  rw [hfind]

theorem resolveBest_lt (routes : List RouteRow) (key : String) (bound : ℚ)
    (h0 : 0 < bound)
    (hall : ∀ stop ∈ buildStopList routes, scoreQ key (normalize stop) < bound) :
    (resolveBest routes key).2 < bound := by
  unfold resolveBest
  have hgen : ∀ (l : List String) (init : Option String × ℚ), init.2 < bound →
      (∀ stop ∈ l, scoreQ key (normalize stop) < bound) →
      (l.foldl (fun (best : Option String × ℚ) stop =>
        let score := scoreQ key (normalize stop)
        if best.2 < score then (some stop, score) else best) init).2 < bound := by
    intro l
    induction l with
    | nil => intro init h1 _; exact h1
    | cons x xs ih =>
      intro init h1 h2
      rw [List.foldl_cons]
      by_cases hx : init.2 < scoreQ key (normalize x)
      · simp only [if_pos hx]
        exact ih _ (h2 x (List.mem_cons_self _ _)) (fun s hs => h2 s (List.mem_cons_of_mem _ hs))
      · simp only [if_neg hx]
        exact ih _ h1 (fun s hs => h2 s (List.mem_cons_of_mem _ hs))
  exact hgen _ _ h0 hall

theorem resolveStop_none_of_unresolvable (routes : List RouteRow) (s : String)
    (h : normalize s = "" ∨
      ((∀ p ∈ aliases, p.1 ≠ normalize s) ∧ stopLookup routes (normalize s) = none ∧
        ∀ stop ∈ buildStopList routes, scoreQ (normalize s) (normalize stop) < 7 / 10)) :
    resolveStop routes s = none := by
  unfold resolveStop
  rcases h with he | ⟨halias, hlook, hscore⟩
  · rw [if_pos he]
  · by_cases hne : normalize s = ""
    · rw [if_pos hne]
    · rw [if_neg hne]
      simp only [aliasGet_eq_self halias, hlook]
      have hb := resolveBest_lt routes (normalize s) (7 / 10) (by norm_num) hscore
      rcases hbn : (resolveBest routes (normalize s)).1 with _ | name
      · simp only [hbn]
      · simp only [hbn, if_pos hb]

/-- C8: unresolvable stop text — empty after normalization, or neither an
alias key nor an exact known stop while every fuzzy score stays below 0.70 —
makes both `find_route` and `suggest_alternative` return `None` (in either
argument position, for any other argument and any time filter). -/
theorem unresolvable_stop_no_result (routes : List RouteRow) (s other a : String)
    (h : normalize s = "" ∨
      ((∀ p ∈ aliases, p.1 ≠ normalize s) ∧ stopLookup routes (normalize s) = none ∧
        ∀ stop ∈ buildStopList routes, scoreQ (normalize s) (normalize stop) < 7 / 10)) :
    findRoute routes s other a = none ∧ findRoute routes other s a = none ∧
    suggestAlternative routes s other a = none ∧ suggestAlternative routes other s a = none := by
  have hres := resolveStop_none_of_unresolvable routes s h
  refine ⟨?_, ?_, ?_, ?_⟩ <;>
    rcases hr2 : resolveStop routes other with _ | v <;>
      simp [findRoute, suggestAlternative, hres, hr2]

def c8Routes : List RouteRow :=
  [⟨"r1", "ab", "cd", "B1", "08:00", 480, 30, ["ab", "cd"]⟩]

theorem unresolvable_stop_no_result_witness :
    (normalize "q" = "" ∨
      ((∀ p ∈ aliases, p.1 ≠ normalize "q") ∧ stopLookup c8Routes (normalize "q") = none ∧
        ∀ stop ∈ buildStopList c8Routes, scoreQ (normalize "q") (normalize stop) < 7 / 10)) ∧
    (findRoute c8Routes "q" "ab" "" = none ∧ findRoute c8Routes "ab" "q" "" = none ∧
      suggestAlternative c8Routes "q" "ab" "" = none ∧
      suggestAlternative c8Routes "ab" "q" "" = none) :=
  ⟨Or.inr (by with_unfolding_all decide),
    unresolvable_stop_no_result c8Routes "q" "ab" "" (Or.inr (by with_unfolding_all decide))⟩

/-! #### buildStopList: distinct normalized keys, and the exact lookup -/

theorem foldl_preserves {σ β : Type} (P : σ → Prop) (step : σ → β → σ)
    (h : ∀ s x, P s → P (step s x)) :
    ∀ (l : List β) (s : σ), P s → P (l.foldl step s) := by
  intro l
  induction l with
  | nil => intro s hs; exact hs
  | cons x xs ih => intro s hs; exact ih _ (h s x hs)

def stopState (st : List String × List String) : Prop :=
  st.1.Pairwise (fun a b => normalize a ≠ normalize b) ∧ ∀ x ∈ st.1, normalize x ∈ st.2

theorem stopFold_preserves (st : List String × List String) (stop : String)
    (h : stopState st) : stopState (stopFold st stop) := by
  obtain ⟨hpw, hmem⟩ := h
  unfold stopFold
  by_cases hk : normalize stop ∈ st.2
  · rw [if_pos hk]; exact ⟨hpw, hmem⟩
  · rw [if_neg hk]
    constructor
    · rw [List.pairwise_append]
      refine ⟨hpw, List.pairwise_singleton _ _, ?_⟩
      intro a ha b hb
      rw [List.mem_singleton] at hb
      subst hb
      intro hc
      exact hk (hc ▸ hmem a ha)
    · intro x hx
      rcases List.mem_append.mp hx with hx | hx
      · exact List.mem_append_left _ (hmem x hx)
      · rw [List.mem_singleton] at hx
        subst hx
        exact List.mem_append_right _ (List.mem_singleton.mpr rfl)

theorem buildStopList_pairwise (routes : List RouteRow) :
    (buildStopList routes).Pairwise (fun a b => normalize a ≠ normalize b) := by
  have : stopState (routes.foldl (fun st route => route.stops.foldl stopFold st) ([], [])) := by
    apply foldl_preserves stopState
    · intro st route hst
      exact foldl_preserves stopState stopFold stopFold_preserves route.stops st hst
    · exact ⟨List.Pairwise.nil, by simp⟩
  exact this.1

theorem lookup_foldl_keeps (k : String) :
    ∀ (l : List String) (acc : Option String),
      (∀ y ∈ l, normalize y ≠ k) →
      l.foldl (fun acc stop => if normalize stop = k then some stop else acc) acc = acc := by
  intro l
  induction l with
  | nil => intro acc _; rfl
  | cons x xs ih =>
    intro acc hall
    rw [List.foldl_cons, if_neg (hall x (List.mem_cons_self _ _))]
    exact ih acc (fun y hy => hall y (List.mem_cons_of_mem _ hy))

theorem lookup_foldl_finds (stop : String) :
    ∀ (l : List String) (acc : Option String), stop ∈ l →
      l.Pairwise (fun a b => normalize a ≠ normalize b) →
      l.foldl (fun acc s => if normalize s = normalize stop then some s else acc) acc =
        some stop := by
  intro l
  induction l with
  | nil => intro acc h _; simp at h
  | cons x xs ih =>
    intro acc hmem hpw
    rcases List.mem_cons.mp hmem with rfl | hmem2
    · rw [List.foldl_cons, if_pos rfl]
      exact lookup_foldl_keeps _ xs _ (fun y hy hc =>
        (List.pairwise_cons.mp hpw).1 y hy hc.symm)
    · rw [List.foldl_cons]
      exact ih _ hmem2 (List.pairwise_cons.mp hpw).2

theorem stopLookup_self {routes : List RouteRow} {stop : String}
    (hmem : stop ∈ buildStopList routes) :
    stopLookup routes (normalize stop) = some stop := by
  unfold stopLookup
  exact lookup_foldl_finds stop (buildStopList routes) none hmem (buildStopList_pairwise routes)

/-- C6 (amended): resolving the canonical display form of a known stop
returns that same stop, provided its normalized form is not a key of the
alias table.  Load-time stop filtering guarantees the non-empty hypothesis
(`_load_csv` keeps only stops with `stop.strip()` truthy). -/
theorem resolve_canonical_self (routes : List RouteRow) (stop : String)
    (hmem : stop ∈ buildStopList routes)
    (hne : normalize stop ≠ "")
    (halias : ∀ p ∈ aliases, p.1 ≠ normalize stop) :
    resolveStop routes stop = some stop := by
  unfold resolveStop
  rw [if_neg hne]
  simp only [aliasGet_eq_self halias, stopLookup_self hmem]

def c6Routes : List RouteRow :=
  [⟨"r1", "Station", "Charbagh", "B1", "08:00", 480, 30, ["Station", "Charbagh"]⟩]

/-- C6 counterexample: `"Station"` is the canonical display form of a known
stop of this timetable, yet `_resolve_stop` sends its normalized form
through the alias table (`"station" ↦ "charbagh"`) and returns the *other*
stop `"Charbagh"`, not `"Station"`. -/
theorem resolve_canonical_self_cex :
    "Station" ∈ buildStopList c6Routes ∧
    resolveStop c6Routes "Station" = some "Charbagh" ∧
    resolveStop c6Routes "Station" ≠ some "Station" := by decide

theorem resolve_canonical_self_witness :
    "Charbagh" ∈ buildStopList c6Routes ∧ normalize "Charbagh" ≠ "" ∧
    (∀ p ∈ aliases, p.1 ≠ normalize "Charbagh") ∧
    resolveStop c6Routes "Charbagh" = some "Charbagh" :=
  ⟨by decide, by decide, by decide,
    resolve_canonical_self c6Routes "Charbagh" (by decide) (by decide) (by decide)⟩

/-! ### Segment duration (C5) -/

/-- Modelled on the spec's wording: `max(5, round(totalDuration × segmentEdges
/ totalEdges))` with `segmentEdges = max(1, t − s)`,
`totalEdges = max(1, len(stops) − 1)`, over exact rational arithmetic. -/
def specSegmentDuration (route : RouteRow) (start_idx end_idx : Nat) : Int :=
  max 5 (pyRound (((route.duration_minutes : ℚ) * ((max 1 (end_idx - start_idx) : Nat) : ℚ)) /
    ((max 1 (route.stops.length - 1) : Nat) : ℚ)))

/-- C5: the segment duration `_segment_duration` attributes to a leg from
index `s` to index `t` equals `max(5, round(durationMinutes × segmentEdges /
totalEdges))` computed over exact rational arithmetic. -/
theorem segmentDuration_eq_spec (route : RouteRow) (s t : Nat) (h : s < t) :
    segmentDuration route s t = specSegmentDuration route s t := by
  unfold segmentDuration specSegmentDuration
  rw [mul_div_assoc]

theorem segmentDuration_eq_spec_witness :
    (0 : Nat) < 2 ∧
    segmentDuration ⟨"r", "A", "C", "B", "08:00", 480, 50, ["A", "B", "C", "D"]⟩ 0 2 =
      specSegmentDuration ⟨"r", "A", "C", "B", "08:00", 480, 50, ["A", "B", "C", "D"]⟩ 0 2 :=
  ⟨by decide,
    segmentDuration_eq_spec ⟨"r", "A", "C", "B", "08:00", 480, 50, ["A", "B", "C", "D"]⟩ 0 2
      (by decide)⟩

/-! ### suggest_alternative: transfer-stop invariants (C2, C10) -/

theorem findStopIndex_lt_length {stops : List String} {name : String} {e : Nat}
    (h : findStopIndex stops name = some e) : e < stops.length := by
  obtain ⟨h1, _⟩ := indexOf?_spec _ _ _ h
  have := get?_some_lt_length h1
  simpa using this

theorem mem_secondLegsFor {routes : List RouteRow} {rt key : String} {leg : LegInfo}
    (h : leg ∈ secondLegsFor routes rt key) :
    leg ∈ secondLegsAll routes rt ∧ normalize leg.transfer_stop = key := by
  obtain ⟨h1, h2⟩ := List.mem_filter.mp h
  exact ⟨h1, by simpa using h2⟩

theorem firstLeg_last_eq_transfer {route : RouteRow} {s t : Nat}
    (hst : s < t) (htl : t < route.stops.length) :
    pyLast (mkFirstLeg route s t).stops = (mkFirstLeg route s t).transfer_stop := by
  show pyLast (listSlice route.stops s (t + 1)) = route.stops.getD t ""
  exact pyLast_slice route.stops s t (by omega) htl

theorem firstLeg_head_eq {route : RouteRow} {s t : Nat} (hst : s < t) :
    pyHead (mkFirstLeg route s t).stops = route.stops.getD s "" := by
  show pyHead (listSlice route.stops s (t + 1)) = route.stops.getD s ""
  exact pyHead_slice route.stops s (t + 1) (by omega)

theorem secondLeg_head_eq_transfer {route : RouteRow} {u e : Nat} (hue : u < e) :
    pyHead (mkSecondLeg route u e).stops = (mkSecondLeg route u e).transfer_stop := by
  show pyHead (listSlice route.stops u (e + 1)) = route.stops.getD u ""
  exact pyHead_slice route.stops u (e + 1) (by omega)

theorem foldl_invariant_mem {α σ : Type} (P : σ → Prop) (step : σ → α → σ) (l : List α)
    (h : ∀ s x, x ∈ l → P s → P (step s x)) : ∀ s, P s → P (l.foldl step s) := by
  induction l with
  | nil => intro s hs; exact hs
  | cons x xs ih =>
    intro s hs
    rw [List.foldl_cons]
    exact ih (fun s' x' hx' hs' => h s' x' (List.mem_cons_of_mem _ hx') hs') _
      (h s x (List.mem_cons_self _ _) hs)

theorem planUpdate_preserves (P : TransferPlan → Prop)
    (best : Option ((Int × Int × Int × String) × TransferPlan))
    (cand : (Int × Int × Int × String) × TransferPlan)
    (hbest : best = none ∨ ∃ kp, best = some kp ∧ P kp.2) (hcand : P cand.2) :
    planUpdate best cand = none ∨ ∃ kp, planUpdate best cand = some kp ∧ P kp.2 := by
  rcases hbest with rfl | ⟨kp, rfl, hkp⟩
  · exact Or.inr ⟨cand, rfl, hcand⟩
  · show (if key4Lt cand.1 kp.1 = true then some cand else some kp) = none ∨
      ∃ kp2, (if key4Lt cand.1 kp.1 = true then some cand else some kp) = some kp2 ∧ P kp2.2
    by_cases hlt : key4Lt cand.1 kp.1 = true
    · rw [if_pos hlt]
      exact Or.inr ⟨cand, rfl, hcand⟩
    · rw [if_neg hlt]
      exact Or.inr ⟨kp, rfl, hkp⟩

/-- The C2 property of a produced transfer plan. -/
def planOK (p : TransferPlan) : Prop :=
  normalize (pyLast p.leg1.stops) = normalize (pyHead p.leg2.stops) ∧
  normalize (pyLast p.leg1.stops) = normalize p.transfer_stop ∧
  ¬ (normalize (pyHead p.leg1.stops) = normalize (pyHead p.leg2.stops) ∧
     normalize (pyLast p.leg1.stops) = normalize (pyLast p.leg2.stops))

theorem considerLeg1_preserves (routes : List RouteRow) (rf rt : String) (after : Option Nat)
    (best : Option ((Int × Int × Int × String) × TransferPlan)) (leg1 : LegInfo)
    (hleg1 : leg1 ∈ firstLegs routes rf after)
    (hbest : best = none ∨ ∃ kp, best = some kp ∧ planOK kp.2) :
    considerLeg1 routes rf rt best leg1 = none ∨
      ∃ kp, considerLeg1 routes rf rt best leg1 = some kp ∧ planOK kp.2 := by
  rcases mem_firstLegs hleg1 with ⟨route, _, s, t, _, _, hst, htl, rfl⟩
  unfold considerLeg1
  rcases hb2 : bestSecondLeg
      (secondLegsFor routes rt (normalize (mkFirstLeg route s t).transfer_stop))
      (mkFirstLeg route s t).departure_minutes with _ | leg2
  · simp only [hb2]
    exact hbest
  · have hleg2mem := pickFirstMin_mem _ _ _ hb2
    obtain ⟨hall, hkey⟩ := mem_secondLegsFor hleg2mem
    rcases mem_secondLegsAll hall with ⟨route2, _, u, e, _, hue, rfl⟩
    simp only [hb2]
    by_cases hguard :
        normalize (pyHead (mkFirstLeg route s t).stops) =
          normalize (pyHead (mkSecondLeg route2 u e).stops) ∧
        normalize (pyLast (mkFirstLeg route s t).stops) =
          normalize (pyLast (mkSecondLeg route2 u e).stops)
    · rw [if_pos hguard]
      exact hbest
    · rw [if_neg hguard]
      have hok : planOK
          { from_stop := rf
            to_stop := rt
            transfer_stop := (mkFirstLeg route s t).transfer_stop
            leg1 := legPayload (mkFirstLeg route s t)
            leg2 := legPayload (mkSecondLeg route2 u e)
            total_duration_minutes := (mkFirstLeg route s t).duration_minutes +
              (mkSecondLeg route2 u e).duration_minutes +
              max 0 (((mkSecondLeg route2 u e).departure_minutes : Int) -
                ((mkFirstLeg route s t).departure_minutes : Int)) } := by
        refine ⟨?_, ?_, ?_⟩
        · show normalize (pyLast (mkFirstLeg route s t).stops) =
            normalize (pyHead (mkSecondLeg route2 u e).stops)
          rw [firstLeg_last_eq_transfer hst htl, secondLeg_head_eq_transfer hue, hkey]
        · show normalize (pyLast (mkFirstLeg route s t).stops) =
            normalize (mkFirstLeg route s t).transfer_stop
          rw [firstLeg_last_eq_transfer hst htl]
        · exact hguard
      exact planUpdate_preserves planOK best _ hbest hok

/-- C2: every successful `suggest_alternative` returns a plan whose first
leg ends at the same (normalized) stop at which the second leg starts — the
transfer stop — and whose two legs do not form the same end-to-end pair of
endpoints under normalization. -/
theorem suggestAlternative_transfer_correct (routes : List RouteRow) (f t a : String)
    (p : TransferPlan) (h : suggestAlternative routes f t a = some p) :
    normalize (pyLast p.leg1.stops) = normalize (pyHead p.leg2.stops) ∧
    normalize (pyLast p.leg1.stops) = normalize p.transfer_stop ∧
    ¬ (normalize (pyHead p.leg1.stops) = normalize (pyHead p.leg2.stops) ∧
       normalize (pyLast p.leg1.stops) = normalize (pyLast p.leg2.stops)) := by
  unfold suggestAlternative at h
  rcases hrf : resolveStop routes f with _ | rf
  · simp only [hrf] at h
    exact absurd h (by simp)
  · rcases hrt : resolveStop routes t with _ | rt
    · simp only [hrf, hrt] at h
      exact absurd h (by simp)
    · simp only [hrf, hrt] at h
      by_cases he : rf = "" ∨ rt = ""
      · rw [if_pos he] at h; exact absurd h (by simp)
      · rw [if_neg he] at h
        rcases Option.map_eq_some'.mp h with ⟨kp, hkp, hp2⟩
        have hinv := foldl_invariant_mem
          (fun b => b = none ∨ ∃ kp, b = some kp ∧ planOK kp.2)
          (considerLeg1 routes rf rt) (firstLegs routes rf (parseTime a))
          (fun b leg1 hmem hb => considerLeg1_preserves routes rf rt (parseTime a) b leg1 hmem hb)
          none (Or.inl rfl)
        rw [hkp] at hinv
        rcases hinv with hnone | ⟨kp2, hkp2, hok⟩
        · exact absurd hnone (by simp)
        · have hkk : kp = kp2 := Option.some_injective _ hkp2
          show planOK p
          rw [← hp2, hkk]
          exact hok

def c2Routes : List RouteRow :=
  [⟨"r1", "A", "C", "BX", "08:00", 480, 30, ["A", "B", "C"]⟩,
   ⟨"r2", "C", "D", "BY", "08:20", 500, 15, ["C", "D"]⟩]

def c2Plan : TransferPlan :=
  { from_stop := "A"
    to_stop := "D"
    transfer_stop := "C"
    leg1 := ⟨"BX", "08:00", 30, ["A", "B", "C"]⟩
    leg2 := ⟨"BY", "08:20", 15, ["C", "D"]⟩
    total_duration_minutes := 65 }

set_option maxRecDepth 4000 in
theorem suggestAlternative_transfer_correct_witness :
    suggestAlternative c2Routes "A" "D" "" = some c2Plan ∧
    (normalize (pyLast c2Plan.leg1.stops) = normalize (pyHead c2Plan.leg2.stops) ∧
      normalize (pyLast c2Plan.leg1.stops) = normalize c2Plan.transfer_stop ∧
      ¬ (normalize (pyHead c2Plan.leg1.stops) = normalize (pyHead c2Plan.leg2.stops) ∧
        normalize (pyLast c2Plan.leg1.stops) = normalize (pyLast c2Plan.leg2.stops))) :=
  ⟨by with_unfolding_all decide,
    suggestAlternative_transfer_correct c2Routes "A" "D" "" c2Plan
      (by with_unfolding_all decide)⟩

def c10Routes : List RouteRow :=
  [⟨"r1", "A", "B", "10", "09:00", 540, 30, ["A", "B"]⟩,
   ⟨"r2", "B", "D", "20", "08:00", 480, 20, ["B", "D"]⟩]

def c10Plan : TransferPlan :=
  { from_stop := "A"
    to_stop := "D"
    transfer_stop := "B"
    leg1 := ⟨"10", "09:00", 30, ["A", "B"]⟩
    leg2 := ⟨"20", "08:00", 20, ["B", "D"]⟩
    total_duration_minutes := 50 }

set_option maxRecDepth 4000 in
/-- C10: the departure-time filter of `suggest_alternative` applies only to
first legs.  On this timetable with filter "09:00", the 08:00 route is still
enumerated as a second-leg candidate, and the returned plan's second leg
departs before the filter time and before the first leg, with the wait term
clamped to zero (total = leg1 + leg2 durations). -/
theorem suggestAlternative_filter_only_first_legs :
    parseTime "09:00" = some 540 ∧
    (mkSecondLeg ⟨"r2", "B", "D", "20", "08:00", 480, 20, ["B", "D"]⟩ 0 1) ∈
      secondLegsAll c10Routes "D" ∧
    (⟨"r2", "B", "D", "20", "08:00", 480, 20, ["B", "D"]⟩ : RouteRow).departure_minutes < 540 ∧
    suggestAlternative c10Routes "A" "D" "09:00" = some c10Plan ∧
    c10Plan.leg2.departure_time = "08:00" ∧ parseTime "08:00" = some 480 ∧ 480 < 540 ∧
    c10Plan.leg1.departure_time = "09:00" ∧
    c10Plan.total_duration_minutes =
      c10Plan.leg1.duration_minutes + c10Plan.leg2.duration_minutes := by
  with_unfolding_all decide

/-! ### difflib on identical strings (C7)

For `SequenceMatcher(None, a, a)` the dynamic program of
`find_longest_match` over a square range `[lo, hi) × [lo, hi)` always
selects a block on the diagonal: any off-diagonal run is dominated by the
corresponding diagonal run, which the strict-improvement tie-break has
already seen.  The extension loops preserve diagonality, so the recursive
block decomposition matches the whole range and `ratio` is `1`.

`cellOK a lo hi i j` says the DP visits cell `(i, j)`: row `i` is in range
and `j` is a position of the row character in `b2j`'s window.  `runF` is the
chain length `j2len` computes at such a cell. -/

def cellOK (a : List Char) (lo hi i j : Nat) : Prop :=
  lo ≤ i ∧ i < hi ∧ lo ≤ j ∧ j < hi ∧ j < a.length ∧
  a.get? j = some (a.getD i (Char.ofNat 0)) ∧
  bJunk a (a.getD i (Char.ofNat 0)) = false

instance cellOK_dec (a : List Char) (lo hi i j : Nat) : Decidable (cellOK a lo hi i j) := by
  unfold cellOK
  exact inferInstance

/-- The run length the DP computes at cell `(i, j)` (0 off the visited
cells): the chain `j2len[j] = j2len_prev[j-1] + 1`. -/
def runF (a : List Char) (lo hi : Nat) : Nat → Nat → Nat
  | 0, j => if cellOK a lo hi 0 j then 1 else 0
  | i + 1, 0 => if cellOK a lo hi (i + 1) 0 then 1 else 0
  | i + 1, j + 1 =>
    if cellOK a lo hi (i + 1) (j + 1) then
      (if cellOK a lo hi i j then runF a lo hi i j else 0) + 1
    else 0

theorem runF_zero {a : List Char} {lo hi i j : Nat} (h : ¬ cellOK a lo hi i j) :
    runF a lo hi i j = 0 := by
  match i, j with
  | 0, j => rw [runF, if_neg h]
  | i + 1, 0 => rw [runF, if_neg h]
  | i + 1, j + 1 => rw [runF, if_neg h]

theorem runF_pos {a : List Char} {lo hi i j : Nat} (h : cellOK a lo hi i j) :
    1 ≤ runF a lo hi i j := by
  match i, j with
  | 0, j => rw [runF, if_pos h]
  | i + 1, 0 => rw [runF, if_pos h]
  | i + 1, j + 1 => rw [runF, if_pos h]; omega

/-- `runF` agrees with the `k = (j2len.get(j-1, 0)) + 1` computation. -/
theorem runF_eq_chain {a : List Char} {lo hi i j : Nat} (h : cellOK a lo hi i j) :
    runF a lo hi i j =
      (if j = 0 then 0
       else if lo < i ∧ cellOK a lo hi (i - 1) (j - 1) then runF a lo hi (i - 1) (j - 1)
       else 0) + 1 := by
  match i, j with
  | 0, 0 => rw [runF, if_pos h, if_pos rfl]
  | 0, j + 1 =>
    rw [runF, if_pos h, if_neg (Nat.succ_ne_zero j),
      if_neg (fun hx => absurd hx.1 (Nat.not_lt_zero lo))]
  | i + 1, 0 => rw [runF, if_pos h, if_pos rfl]
  | i + 1, j + 1 =>
    rw [runF, if_pos h, if_neg (Nat.succ_ne_zero j)]
    simp only [Nat.add_sub_cancel]
    by_cases hc : cellOK a lo hi i j
    · rw [if_pos hc, if_pos ⟨by have := hc.1; omega, hc⟩]
    · rw [if_neg hc, if_neg (by intro hx; exact hc hx.2)]

theorem runF_le {a : List Char} {lo hi : Nat} :
    ∀ i j, runF a lo hi i j ≤ i + 1 - lo := by
  intro i
  induction i with
  | zero =>
    intro j
    rw [runF]
    by_cases h : cellOK a lo hi 0 j
    · rw [if_pos h]
      obtain ⟨h1, _⟩ := h
      omega
    · rw [if_neg h]; omega
  | succ i ih =>
    intro j
    match j with
    | 0 =>
      rw [runF]
      by_cases h : cellOK a lo hi (i + 1) 0
      · rw [if_pos h]
        obtain ⟨h1, _⟩ := h
        omega
      · rw [if_neg h]; omega
    | j + 1 =>
      rw [runF]
      by_cases h : cellOK a lo hi (i + 1) (j + 1)
      · rw [if_pos h]
        obtain ⟨h1, _⟩ := h
        by_cases hc : cellOK a lo hi i j
        · rw [if_pos hc]
          have := ih j
          have := hc.1
          omega
        · rw [if_neg hc]; omega
      · rw [if_neg h]; omega

theorem get?_eq_some_getD {a : List Char} {n : Nat} (h : n < a.length) :
    a.get? n = some (a.getD n (Char.ofNat 0)) := by
  rw [List.getD_eq_getElem?_getD, List.get?_eq_getElem?, List.getElem?_eq_getElem h]
  rfl

/-- The character at a visited cell's column equals the row character. -/
theorem cellOK_char_eq {a : List Char} {lo hi i j : Nat} (h : cellOK a lo hi i j) :
    a.getD j (Char.ofNat 0) = a.getD i (Char.ofNat 0) := by
  obtain ⟨_, _, _, _, h5, h6, _⟩ := h
  have := get?_eq_some_getD h5
  rw [this] at h6
  exact Option.some_injective _ h6

theorem cellOK_diag_left {a : List Char} {lo hi i j : Nat} (h : cellOK a lo hi i j) :
    cellOK a lo hi j j := by
  have hch := cellOK_char_eq h
  obtain ⟨h1, h2, h3, h4, h5, h6, h7⟩ := h
  exact ⟨h3, h4, h3, h4, h5, get?_eq_some_getD h5, by rw [hch]; exact h7⟩

theorem cellOK_diag_right {a : List Char} {lo hi i j : Nat} (hlen : hi ≤ a.length)
    (h : cellOK a lo hi i j) : cellOK a lo hi i i := by
  obtain ⟨h1, h2, h3, h4, h5, h6, h7⟩ := h
  exact ⟨h1, h2, h1, h2, by omega, get?_eq_some_getD (by omega), h7⟩

/-- An off-diagonal run below the diagonal is dominated by the diagonal run
at its column. -/
theorem runF_le_diag_left {a : List Char} {lo hi : Nat} :
    ∀ i j, j ≤ i → runF a lo hi i j ≤ runF a lo hi j j := by
  intro i
  induction i with
  | zero =>
    intro j hj
    interval_cases j
    exact le_rfl
  | succ i ih =>
    intro j hj
    by_cases h : cellOK a lo hi (i + 1) j
    · have hdiag := cellOK_diag_left h
      match j, hj with
      | 0, _ =>
        have e1 : runF a lo hi (i + 1) 0 = 1 := by rw [runF, if_pos h]
        have e2 : runF a lo hi 0 0 = 1 := by rw [runF, if_pos hdiag]
        rw [e1, e2]
      | j + 1, hj =>
        have e1 : runF a lo hi (i + 1) (j + 1) =
            (if cellOK a lo hi i j then runF a lo hi i j else 0) + 1 := by
          rw [runF, if_pos h]
        have e2 : runF a lo hi (j + 1) (j + 1) =
            (if cellOK a lo hi j j then runF a lo hi j j else 0) + 1 := by
          rw [runF, if_pos hdiag]
        rw [e1, e2]
        by_cases hc : cellOK a lo hi i j
        · rw [if_pos hc, if_pos (cellOK_diag_left hc)]
          have := ih j (by omega)
          omega
        · rw [if_neg hc]
          omega
    · rw [runF_zero h]
      exact Nat.zero_le _

/-- An off-diagonal run above the diagonal is dominated by the diagonal run
at its row. -/
theorem runF_le_diag_right {a : List Char} {lo hi : Nat} (hlen : hi ≤ a.length) :
    ∀ i j, i ≤ j → runF a lo hi i j ≤ runF a lo hi i i := by
  intro i
  induction i with
  | zero =>
    intro j hj
    by_cases h : cellOK a lo hi 0 j
    · have hdiag := cellOK_diag_right hlen h
      have e1 : runF a lo hi 0 j = 1 := by rw [runF, if_pos h]
      have e2 : runF a lo hi 0 0 = 1 := by rw [runF, if_pos hdiag]
      rw [e1, e2]
    · rw [runF_zero h]
      exact Nat.zero_le _
  | succ i ih =>
    intro j hj
    by_cases h : cellOK a lo hi (i + 1) j
    · have hdiag := cellOK_diag_right hlen h
      match j, hj with
      | j + 1, hj =>
        have e1 : runF a lo hi (i + 1) (j + 1) =
            (if cellOK a lo hi i j then runF a lo hi i j else 0) + 1 := by
          rw [runF, if_pos h]
        have e2 : runF a lo hi (i + 1) (i + 1) =
            (if cellOK a lo hi i i then runF a lo hi i i else 0) + 1 := by
          rw [runF, if_pos hdiag]
        rw [e1, e2]
        by_cases hc : cellOK a lo hi i j
        · rw [if_pos hc, if_pos (cellOK_diag_right hlen hc)]
          have := ih j (by omega)
          omega
        · rw [if_neg hc]
          omega
    · rw [runF_zero h]
      exact Nat.zero_le _

/-- Invariant of the DP's best-block state on a square range of `(a, a)`:
zero size means the initial state, positive size means a diagonal block
within bounds. -/
def stOK (lo hi : Nat) (st : Nat × Nat × Nat) : Prop :=
  (st.2.2 = 0 → st = (lo, lo, 0)) ∧
  (0 < st.2.2 → st.1 = st.2.1 ∧ lo ≤ st.1 ∧ st.1 + st.2.2 ≤ hi)

theorem b2j_mem {b : List Char} {c : Char} {x : Nat} (h : x ∈ b2j b c) :
    x < b.length ∧ b.get? x = some c ∧ bJunk b c = false := by
  unfold b2j at h
  by_cases hj : bJunk b c = true
  · rw [if_pos hj] at h
    simp at h
  · rw [Bool.not_eq_true] at hj
    rw [if_neg (by rw [hj]; simp)] at h
    obtain ⟨h1, h2⟩ := List.mem_filter.mp h
    exact ⟨List.mem_range.mp h1, by simpa using h2, hj⟩

theorem b2j_mem_of {b : List Char} {c : Char} {x : Nat}
    (h1 : x < b.length) (h2 : b.get? x = some c) (h3 : bJunk b c = false) :
    x ∈ b2j b c := by
  unfold b2j
  rw [if_neg (by rw [h3]; simp)]
  exact List.mem_filter.mpr ⟨List.mem_range.mpr h1, by simpa using h2⟩

theorem b2j_pairwise (b : List Char) (c : Char) : (b2j b c).Pairwise (· < ·) := by
  unfold b2j
  by_cases hj : bJunk b c = true
  · rw [if_pos hj]
    exact List.Pairwise.nil
  · rw [if_neg hj]
    exact (List.pairwise_lt_range b.length).filter _

/-- The inner loop of `find_longest_match` on a square range of `(a, a)`:
it finishes the row's `newj2len` (`runF` on visited cells, 0 elsewhere),
keeps the best-block state diagonal, and makes its size dominate every run
in rows up to the current one.  The strict tie-break `st.2.2 < k` never
accepts an off-diagonal run: the corresponding diagonal run was already
processed (earlier row, or earlier in this row since `b2j` is ascending)
and already pushed the best size at least as high. -/
theorem flmInner_spec (a : List Char) (lo hi : Nat) (hlen : hi ≤ a.length)
    (i : Nat) (hilo : lo ≤ i) (hihi : i < hi) (j2len : Nat → Nat)
    (hJ : ∀ x, j2len x =
      if lo < i ∧ cellOK a lo hi (i - 1) x then runF a lo hi (i - 1) x else 0) :
    ∀ (js : List Nat) (acc : Nat → Nat) (st : Nat × Nat × Nat),
      js.Pairwise (· < ·) →
      (∀ x ∈ js, x < a.length ∧ a.get? x = some (a.getD i (Char.ofNat 0)) ∧
        bJunk a (a.getD i (Char.ofNat 0)) = false) →
      (∀ x, cellOK a lo hi i x → x ∈ js ∨ acc x = runF a lo hi i x) →
      (∀ x, ¬ cellOK a lo hi i x → acc x = 0) →
      (∀ i2 j2, cellOK a lo hi i2 j2 → (i2 < i ∨ (i2 = i ∧ j2 ∉ js)) →
        runF a lo hi i2 j2 ≤ st.2.2) →
      stOK lo hi st →
      (∀ x, cellOK a lo hi i x → (flmInner i lo hi j2len js acc st).1 x = runF a lo hi i x) ∧
      (∀ x, ¬ cellOK a lo hi i x → (flmInner i lo hi j2len js acc st).1 x = 0) ∧
      (∀ i2 j2, cellOK a lo hi i2 j2 → i2 ≤ i →
        runF a lo hi i2 j2 ≤ (flmInner i lo hi j2len js acc st).2.2.2) ∧
      stOK lo hi (flmInner i lo hi j2len js acc st).2 := by
  intro js
  induction js with
  | nil =>
    intro acc st _ _ h1 hacc0 hdom hst
    rw [flmInner]
    refine ⟨?_, hacc0, ?_, hst⟩
    · intro x hx
      rcases h1 x hx with hmem | heq
      · simp at hmem
      · exact heq
    · intro i2 j2 hc hle
      rcases Nat.lt_or_ge i2 i with hlt | hge
      · exact hdom i2 j2 hc (Or.inl hlt)
      · exact hdom i2 j2 hc (Or.inr ⟨by omega, by simp⟩)
  | cons j js' ih =>
    intro acc st hpw hjsok h1 hacc0 hdom hst
    have hpw' := (List.pairwise_cons.mp hpw).2
    have hgt : ∀ x ∈ js', j < x := (List.pairwise_cons.mp hpw).1
    by_cases hjlo : j < lo
    · -- `continue`: the cell is left of the window and invalid
      have heq : flmInner i lo hi j2len (j :: js') acc st =
          flmInner i lo hi j2len js' acc st := by
        rw [flmInner, if_pos hjlo]
      rw [heq]
      refine ih acc st hpw' (fun x hx => hjsok x (List.mem_cons_of_mem _ hx)) ?_ hacc0 ?_ hst
      · intro x hx
        rcases h1 x hx with hmem | hacc
        · rcases List.mem_cons.mp hmem with rfl | hmem'
          · exact absurd hx.2.2.1 (by omega)
          · exact Or.inl hmem'
        · exact Or.inr hacc
      · intro i2 j2 hc hcase
        rcases hcase with hlt | ⟨rfl, hnot⟩
        · exact hdom i2 j2 hc (Or.inl hlt)
        · by_cases hj2 : j2 = j
          · subst hj2
            exact absurd hc.2.2.1 (by omega)
          · exact hdom i2 j2 hc (Or.inr ⟨rfl, by
              intro hmem
              rcases List.mem_cons.mp hmem with h | h
              · exact hj2 h
              · exact hnot h⟩)
    · by_cases hjhi : hi ≤ j
      · -- `break`: every pending position is out of the window
        have heq : flmInner i lo hi j2len (j :: js') acc st = (acc, st) := by
          rw [flmInner, if_neg hjlo, if_pos hjhi]
        rw [heq]
        refine ⟨?_, hacc0, ?_, hst⟩
        · intro x hx
          rcases h1 x hx with hmem | hacc
          · rcases List.mem_cons.mp hmem with rfl | hmem'
            · exact absurd hx.2.2.2.1 (by omega)
            · exact absurd hx.2.2.2.1 (by have := hgt x hmem'; omega)
          · exact hacc
        · intro i2 j2 hc hle
          rcases Nat.lt_or_ge i2 i with hlt | hge
          · exact hdom i2 j2 hc (Or.inl hlt)
          · refine hdom i2 j2 hc (Or.inr ⟨by omega, ?_⟩)
            intro hmem
            rcases List.mem_cons.mp hmem with rfl | hmem'
            · exact absurd hc.2.2.2.1 (by omega)
            · exact absurd hc.2.2.2.1 (by have := hgt j2 hmem'; omega)
      · -- the cell `(i, j)` is processed
        obtain ⟨hxlen, hxchar, hxjunk⟩ := hjsok j (List.mem_cons_self _ _)
        have hcell : cellOK a lo hi i j :=
          ⟨hilo, hihi, by omega, by omega, hxlen, hxchar, hxjunk⟩
        have hk : (if j = 0 then 0 else j2len (j - 1)) + 1 = runF a lo hi i j := by
          rw [runF_eq_chain hcell]
          by_cases hj0 : j = 0
          · rw [if_pos hj0, if_pos hj0]
          · rw [if_neg hj0, if_neg hj0, hJ (j - 1)]
        have heq : flmInner i lo hi j2len (j :: js') acc st =
            flmInner i lo hi j2len js'
              (fun x => if x = j then (if j = 0 then 0 else j2len (j - 1)) + 1 else acc x)
              (if st.2.2 < (if j = 0 then 0 else j2len (j - 1)) + 1 then
                (i + 1 - ((if j = 0 then 0 else j2len (j - 1)) + 1),
                  j + 1 - ((if j = 0 then 0 else j2len (j - 1)) + 1),
                  (if j = 0 then 0 else j2len (j - 1)) + 1)
              else st) := by
          rw [flmInner, if_neg hjlo, if_neg hjhi]
        rw [heq, hk]
        -- the new accumulator and state
        refine ih _ _ hpw' (fun x hx => hjsok x (List.mem_cons_of_mem _ hx)) ?_ ?_ ?_ ?_
        · -- pending-or-finished for the new accumulator
          intro x hx
          by_cases hxj : x = j
          · subst hxj
            exact Or.inr (by rw [if_pos rfl])
          · rcases h1 x hx with hmem | hacc
            · rcases List.mem_cons.mp hmem with h | h
              · exact absurd h hxj
              · exact Or.inl h
            · exact Or.inr (by rw [if_neg hxj, hacc])
        · -- invalid cells stay 0
          intro x hx
          have hxj : x ≠ j := fun h => hx (h ▸ hcell)
          rw [if_neg hxj]
          exact hacc0 x hx
        · -- the new size dominates rows up to `i` minus the pending cells
          intro i2 j2 hc hcase
          by_cases hup : st.2.2 < runF a lo hi i j
          · -- update: the accepted run is the diagonal one, of size `runF i j`
            rw [if_pos hup]
            have hij : runF a lo hi i2 j2 ≤ runF a lo hi i j ∨
                runF a lo hi i2 j2 ≤ st.2.2 := by
              rcases hcase with hlt | ⟨rfl, hnot⟩
              · exact Or.inr (hdom i2 j2 hc (Or.inl hlt))
              · by_cases hj2 : j2 = j
                · subst hj2; exact Or.inl le_rfl
                · exact Or.inr (hdom i2 j2 hc (Or.inr ⟨rfl, by
                    intro hmem
                    rcases List.mem_cons.mp hmem with h | h
                    · exact hj2 h
                    · exact hnot h⟩))
            show runF a lo hi i2 j2 ≤ runF a lo hi i j
            rcases hij with h | h
            · exact h
            · omega
          · rw [if_neg hup]
            rcases hcase with hlt | ⟨rfl, hnot⟩
            · exact hdom i2 j2 hc (Or.inl hlt)
            · by_cases hj2 : j2 = j
              · subst hj2; omega
              · exact hdom i2 j2 hc (Or.inr ⟨rfl, by
                  intro hmem
                  rcases List.mem_cons.mp hmem with h | h
                  · exact hj2 h
                  · exact hnot h⟩)
        · -- the state stays diagonal: an off-diagonal update is impossible
          by_cases hup : st.2.2 < runF a lo hi i j
          · rw [if_pos hup]
            have hji : j = i := by
              rcases Nat.lt_trichotomy j i with hlt | heq2 | hgt2
              · -- `j < i`: the diagonal run at `(j, j)` was seen in row `j`
                exfalso
                have hd : runF a lo hi i j ≤ runF a lo hi j j :=
                  runF_le_diag_left i j (by omega)
                have hcd := cellOK_diag_left hcell
                have := hdom j j hcd (Or.inl hlt)
                omega
              · exact heq2
              · -- `i < j`: the diagonal run at `(i, i)` was seen earlier in this row
                exfalso
                have hd : runF a lo hi i j ≤ runF a lo hi i i :=
                  runF_le_diag_right hlen i j (by omega)
                have hcd := cellOK_diag_right hlen hcell
                have hnmem : i ∉ j :: js' := by
                  intro hmem
                  rcases List.mem_cons.mp hmem with h | h
                  · omega
                  · have := hgt i h; omega
                have := hdom i i hcd (Or.inr ⟨rfl, hnmem⟩)
                omega
            have hle1 : runF a lo hi i j ≤ i + 1 - lo := runF_le i j
            have hpos : 1 ≤ runF a lo hi i j := runF_pos hcell
            constructor
            · intro hzero
              exfalso
              have hz : runF a lo hi i j = 0 := hzero
              omega
            · intro _
              refine ⟨?_, ?_, ?_⟩
              · show i + 1 - runF a lo hi i j = j + 1 - runF a lo hi i j
                rw [hji]
              · show lo ≤ i + 1 - runF a lo hi i j
                omega
              · show (i + 1 - runF a lo hi i j) + runF a lo hi i j ≤ hi
                omega
          · rw [if_neg hup]
            exact hst

/-- The outer DP loop on a square range of `(a, a)`: starting from the
initial state, it ends with a diagonal best block whose size dominates
every run. -/
theorem flmOuter_spec (a : List Char) (lo hi : Nat) (hlen : hi ≤ a.length) :
    ∀ (m i : Nat) (j2len : Nat → Nat) (st : Nat × Nat × Nat),
      lo ≤ i → i + m = hi →
      (∀ x, j2len x =
        if lo < i ∧ cellOK a lo hi (i - 1) x then runF a lo hi (i - 1) x else 0) →
      (∀ i2 j2, cellOK a lo hi i2 j2 → i2 < i → runF a lo hi i2 j2 ≤ st.2.2) →
      stOK lo hi st →
      (∀ i2 j2, cellOK a lo hi i2 j2 →
        runF a lo hi i2 j2 ≤ (flmOuter a a lo hi (List.range' i m) j2len st).2.2) ∧
      stOK lo hi (flmOuter a a lo hi (List.range' i m) j2len st) := by
  intro m
  induction m with
  | zero =>
    intro i j2len st hilo him _ hdom hst
    rw [show List.range' i 0 = [] from rfl, flmOuter]
    exact ⟨fun i2 j2 hc => hdom i2 j2 hc (by have := hc.2.1; omega), hst⟩
  | succ m ih =>
    intro i j2len st hilo him hJ hdom hst
    have hihi : i < hi := by omega
    rw [List.range'_succ i m 1, flmOuter]
    obtain ⟨c1, c2, c3, c4⟩ := flmInner_spec a lo hi hlen i hilo hihi j2len hJ
      (b2j a (a.getD i (Char.ofNat 0))) (fun _ => 0) st
      (b2j_pairwise a _)
      (fun x hx => b2j_mem hx)
      (fun x hx => Or.inl (b2j_mem_of hx.2.2.2.2.1 hx.2.2.2.2.2.1 hx.2.2.2.2.2.2))
      (fun x _ => rfl)
      (by
        intro i2 j2 hc hcase
        rcases hcase with hlt | ⟨rfl, hnot⟩
        · exact hdom i2 j2 hc hlt
        · exact absurd (b2j_mem_of hc.2.2.2.2.1 hc.2.2.2.2.2.1 hc.2.2.2.2.2.2) hnot)
      hst
    exact ih (i + 1) _ _ (by omega) (by omega)
      (by
        intro x
        by_cases hc : cellOK a lo hi i x
        · rw [if_pos ⟨by omega, by simpa using hc⟩]
          simpa using c1 x hc
        · rw [if_neg (by
            intro hx
            exact hc (by simpa using hx.2))]
          exact c2 x hc)
      (fun i2 j2 hc hlt => c3 i2 j2 hc (by omega))
      c4

/-- From a state with `besti = alo` or `bestj = blo`, a backward extension
loop does nothing. -/
theorem extendBack_base (a b : List Char) (alo blo : Nat) (ph : Bool) (fuel k : Nat) :
    extendBack a b alo blo ph fuel alo blo k = (alo, blo, k) := by
  cases fuel with
  | zero => rfl
  | succ f =>
    rw [extendBack, if_neg]
    intro h
    exact absurd h.1 (lt_irrefl alo)

/-- A forward extension loop whose condition fails does nothing. -/
theorem extendFwd_stuck {a b : List Char} {ahi bhi : Nat} {ph : Bool} {p q k : Nat}
    (h : ¬ (p + k < ahi ∧ q + k < bhi ∧ bJunk b (b.getD (q + k) (Char.ofNat 0)) = ph ∧
      a.getD (p + k) (Char.ofNat 0) = b.getD (q + k) (Char.ofNat 0))) (fuel : Nat) :
    extendFwd a b ahi bhi ph fuel p q k = (p, q, k) := by
  cases fuel with
  | zero => rfl
  | succ f => rw [extendFwd, if_neg h]

/-- A backward extension loop keeps the state diagonal and only moves mass
from the start position into the size. -/
theorem extendBack_diag (a : List Char) (lo : Nat) (ph : Bool) :
    ∀ (fuel p k : Nat), lo ≤ p →
      ∃ p2 k2, extendBack a a lo lo ph fuel p p k = (p2, p2, k2) ∧
        lo ≤ p2 ∧ p2 + k2 = p + k ∧ k ≤ k2 := by
  intro fuel
  induction fuel with
  | zero => intro p k hp; exact ⟨p, k, rfl, hp, rfl, le_rfl⟩
  | succ f ih =>
    intro p k hp
    rw [extendBack]
    by_cases hc : lo < p ∧ lo < p ∧ bJunk a (a.getD (p - 1) (Char.ofNat 0)) = ph ∧
        a.getD (p - 1) (Char.ofNat 0) = a.getD (p - 1) (Char.ofNat 0)
    · rw [if_pos hc]
      obtain ⟨p2, k2, heq, h1, h2, h3⟩ := ih (p - 1) (k + 1) (by omega)
      refine ⟨p2, k2, heq, h1, by omega, by omega⟩
    · rw [if_neg hc]
      exact ⟨p, k, rfl, hp, rfl, le_rfl⟩

/-- A forward extension loop keeps the state diagonal, only grows the size,
and respects the range bound. -/
theorem extendFwd_diag (a : List Char) (hi : Nat) (ph : Bool) :
    ∀ (fuel p k : Nat),
      ∃ k2, extendFwd a a hi hi ph fuel p p k = (p, p, k2) ∧ k ≤ k2 ∧
        (p + k ≤ hi → p + k2 ≤ hi) := by
  intro fuel
  induction fuel with
  | zero => intro p k; exact ⟨k, rfl, le_rfl, id⟩
  | succ f ih =>
    intro p k
    rw [extendFwd]
    by_cases hc : p + k < hi ∧ p + k < hi ∧ bJunk a (a.getD (p + k) (Char.ofNat 0)) = ph ∧
        a.getD (p + k) (Char.ofNat 0) = a.getD (p + k) (Char.ofNat 0)
    · rw [if_pos hc]
      obtain ⟨k2, heq, h1, h2⟩ := ih p (k + 1)
      refine ⟨k2, heq, by omega, fun _ => h2 (by omega)⟩
    · rw [if_neg hc]
      exact ⟨k, rfl, le_rfl, id⟩

/-- Starting a junk-phase forward extension at an in-range junk position
grows the size to at least 1. -/
theorem extendFwd_junk_start (a : List Char) (lo hi : Nat) (hlo : lo < hi)
    (hjunk : bJunk a (a.getD lo (Char.ofNat 0)) = true) :
    ∀ fuel, 1 ≤ fuel →
      ∃ k2, extendFwd a a hi hi true fuel lo lo 0 = (lo, lo, k2) ∧ 1 ≤ k2 ∧ lo + k2 ≤ hi := by
  intro fuel hfuel
  match fuel, hfuel with
  | f + 1, _ =>
    rw [extendFwd, if_pos ⟨by omega, by omega, by simpa using hjunk, rfl⟩]
    obtain ⟨k2, heq, h1, h2⟩ := extendFwd_diag a hi true f lo 1
    exact ⟨k2, heq, h1, h2 (by omega)⟩

/-- `find_longest_match` on a square range of `(a, a)` returns a diagonal
block within the range, nonempty whenever the range is. -/
theorem findLongestMatch_diag (a : List Char) (lo hi : Nat) (hlohi : lo ≤ hi)
    (hlen : hi ≤ a.length) :
    ∃ p k, findLongestMatch a a lo hi lo hi = (p, p, k) ∧ lo ≤ p ∧ p + k ≤ hi ∧
      (lo < hi → 1 ≤ k) := by
  obtain ⟨hdomF, hstF⟩ := flmOuter_spec a lo hi hlen (hi - lo) lo (fun _ => 0) (lo, lo, 0)
    le_rfl (by omega)
    (fun x => by rw [if_neg (fun h => absurd h.1 (lt_irrefl lo))])
    (fun i2 j2 hc hlt => absurd hc.1 (by omega))
    ⟨fun _ => rfl, fun h => absurd h (lt_irrefl 0)⟩
  rcases hsv : flmOuter a a lo hi (List.range' lo (hi - lo)) (fun _ => 0) (lo, lo, 0) with
    ⟨b1, b2, sz⟩
  rw [hsv] at hdomF hstF
  have hfl : findLongestMatch a a lo hi lo hi =
      (let s1 := extendBack a a lo lo false b1 b1 b2 sz
       let s2 := extendFwd a a hi hi false hi s1.1 s1.2.1 s1.2.2
       let s3 := extendBack a a lo lo true s2.1 s2.1 s2.2.1 s2.2.2
       extendFwd a a hi hi true hi s3.1 s3.2.1 s3.2.2) := by
    unfold findLongestMatch
    rw [hsv]
  by_cases hsz : sz = 0
  · -- the DP found nothing: the range is empty or starts with junk
    subst hsz
    have hb12 : (b1, b2, (0 : Nat)) = (lo, lo, 0) := hstF.1 rfl
    have hb1 : b1 = lo := congrArg Prod.fst hb12
    have hb2 : b2 = lo := congrArg (fun s => s.2.1) hb12
    rw [hb1, hb2] at hfl
    have he1 : extendBack a a lo lo false lo lo lo 0 = (lo, lo, 0) :=
      extendBack_base a a lo lo false lo 0
    by_cases hlh : lo < hi
    · -- the first in-range character must be junk
      have hjunk : bJunk a (a.getD lo (Char.ofNat 0)) = true := by
        by_contra hj
        rw [Bool.not_eq_true] at hj
        have hcell : cellOK a lo hi lo lo :=
          ⟨le_rfl, hlh, le_rfl, hlh, by omega, get?_eq_some_getD (by omega), hj⟩
        have h5 : runF a lo hi lo lo ≤ 0 := hdomF lo lo hcell
        have h6 := runF_pos hcell
        omega
      have he2 : extendFwd a a hi hi false hi lo lo 0 = (lo, lo, 0) :=
        extendFwd_stuck (by
          intro h
          rw [Nat.add_zero] at h
          rw [hjunk] at h
          exact Bool.noConfusion h.2.2.1) hi
      obtain ⟨k4, he4, hk4, hb4⟩ := extendFwd_junk_start a lo hi hlh hjunk hi (by omega)
      refine ⟨lo, k4, ?_, le_rfl, hb4, fun _ => hk4⟩
      rw [hfl]
      simp only [he1, he2, extendBack_base, he4]
    · -- empty range: everything is the identity
      have hlo_eq : lo = hi := by omega
      have he2 : extendFwd a a hi hi false hi lo lo 0 = (lo, lo, 0) :=
        extendFwd_stuck (by intro h; omega) hi
      have he4 : extendFwd a a hi hi true hi lo lo 0 = (lo, lo, 0) :=
        extendFwd_stuck (by intro h; omega) hi
      refine ⟨lo, 0, ?_, le_rfl, by omega, fun h => absurd h (by omega)⟩
      rw [hfl]
      simp only [he1, he2, extendBack_base, he4]
  · -- the DP found a diagonal block; the extensions keep it diagonal
    have h0 : 0 < sz := Nat.pos_of_ne_zero hsz
    obtain ⟨hdiag, hblo, hbd⟩ := hstF.2 h0
    have hdiag' : b1 = b2 := hdiag
    have hblo' : lo ≤ b1 := hblo
    have hbd' : b1 + sz ≤ hi := hbd
    rw [← hdiag'] at hfl
    obtain ⟨p1, k1, he1, hp1, hs1, hk1⟩ := extendBack_diag a lo false b1 b1 sz hblo'
    obtain ⟨k2, he2, hk2, hb2'⟩ := extendFwd_diag a hi false hi p1 k1
    obtain ⟨p3, k3, he3, hp3, hs3, hk3⟩ := extendBack_diag a lo true p1 p1 k2 hp1
    obtain ⟨k4, he4, hk4, hb4'⟩ := extendFwd_diag a hi true hi p3 k3
    have hbnd2 : p1 + k2 ≤ hi := hb2' (by omega)
    refine ⟨p3, k4, ?_, hp3, hb4' (by omega), fun _ => by omega⟩
    rw [hfl]
    simp only [he1, he2, he3, he4]

/-- On identical ranges of `(a, a)`, the matching-block decomposition covers
the whole range: the matched total is `hi - lo`. -/
theorem matchTotal_self (a : List Char) :
    ∀ (fuel lo hi : Nat), lo ≤ hi → hi ≤ a.length → hi - lo ≤ fuel →
      matchTotal a a fuel lo hi lo hi = hi - lo := by
  intro fuel
  induction fuel with
  | zero =>
    intro lo hi hlohi _ hfuel
    rw [matchTotal]
    omega
  | succ f ih =>
    intro lo hi hlohi hlen hfuel
    obtain ⟨p, k, heq, hp, hpk, hone⟩ := findLongestMatch_diag a lo hi hlohi hlen
    rw [matchTotal]
    simp only [heq]
    by_cases hk : k = 0
    · rw [if_pos hk]
      have hle : hi ≤ lo := by
        by_contra hlt
        have := hone (by omega)
        omega
      omega
    · rw [if_neg hk]
      rw [ih lo p hp (by omega) (by omega)]
      rw [ih (p + k) hi hpk hlen (by omega)]
      omega

/-- difflib's ratio of a string with itself is `1`. -/
theorem ratioQ_self (s : String) : ratioQ s s = 1 := by
  have hm := matchTotal_self s.data (s.data.length + s.data.length) 0 s.data.length
    (Nat.zero_le _) le_rfl (by omega)
  simp only [ratioQ]
  by_cases h : s.data.length + s.data.length = 0
  · rw [if_pos h]
  · rw [if_neg h, hm]
    have hn : s.data.length ≠ 0 := by omega
    rw [Nat.sub_zero]
    push_cast
    have h2 : ((s.data.length : ℚ) + (s.data.length : ℚ)) ≠ 0 := by
      have hpos : (0 : ℚ) < (s.data.length : ℚ) := by
        exact_mod_cast Nat.pos_of_ne_zero hn
      linarith
    have h3 : ((s.length : ℚ)) ≠ 0 := by
      have he : s.length = s.data.length := rfl
      rw [he]
      exact_mod_cast hn
    field_simp
    ring

/-- C7, counterexample: the similarity score of `_resolve_stop` is **not**
symmetric.  difflib's `ratio` depends on the argument order (its greedy
matching-block decomposition anchors on the first string), and on the pair
`("tide", "diet")` the two orders give `1/4` and `1/2`. -/
theorem scoreQ_symm_cex : scoreQ "tide" "diet" ≠ scoreQ "diet" "tide" := by
  with_unfolding_all decide

/-- C7 (amended): the `0.12` substring bonus of `_resolve_stop` is symmetric
in its two arguments, and the sequence-similarity ratio of a string with
itself is `1.0` (before the bonus).  The ratio itself is not symmetric, see
the counterexample. -/
theorem scoreQ_symm_self :
    (∀ x y : String, bonusQ x y = bonusQ y x) ∧ (∀ x : String, ratioQ x x = 1) := by
  constructor
  · intro x y
    simp only [bonusQ, Bool.or_comm]
  · exact ratioQ_self

end Transport
